import Mathlib

/-!
# Security_Lines.cpp: modular combinatorics utilities

A shallow embedding of the numeric helpers of `src/Security_Lines.cpp`
(`mod_exp`, `precompute_factorials`, `ncr`, `power`, `tobin`, `toint`, `isPrime`,
`ispowerof2`, `nearestPowerOf2`) together with the two global tables `fact` and
`inv_fact`, of the routine `solve`, and theorems about them.

Conventions of the embedding:

* `long long` values are integers (`Int`); every `+`, `-` and `*` of the
  source is followed by `wrap64`, the two's-complement reduction into
  `[-2^63, 2^63)`; `int` arithmetic is followed by `wrap32`.
* `%` is the truncating remainder of C++ (`Int.tmod`); a zero divisor, and
  the one overflowing quotient `LLONG_MIN % -1`, end the run with
  `Err.divByZero`.
* `v[i]` on a `vector<long long>` is checked: an index outside `0 .. size-1`
  ends the run with `Err.outOfBounds`; `resize` to more than `max_size()` entries
  ends it with `Err.lengthError`.
* `while` loops take a fuel argument that bounds the number of times the loop
  test is evaluated; running out of it is `Err.outOfFuel`.
-/

namespace SecurityLines

/-- Ways in which a run of the embedded code ends without a value. -/
inductive Err where
  | divByZero
  | outOfBounds
  | lengthError
  | outOfFuel
  deriving DecidableEq, Repr

deriving instance DecidableEq for Except

/-- Two's-complement reduction of an integer into the range of `long long`. -/
def wrap64 (x : Int) : Int :=
  (x + 2 ^ 63) % 2 ^ 64 - 2 ^ 63

/-- The `%` operator on `long long`: truncating remainder, undefined for a zero
divisor and for `LLONG_MIN % -1`. -/
def cmod (x m : Int) : Except Err Int :=
  if m = 0 then Except.error Err.divByZero
  else if x = -2 ^ 63 ∧ m = -1 then Except.error Err.divByZero
  else Except.ok (Int.tmod x m)

/-- Read `v[i]` for a `long long` index `i`. -/
def load (v : List Int) (i : Int) : Except Err Int :=
  if 0 ≤ i ∧ i < v.length then Except.ok (v.getD i.toNat 0)
  else Except.error Err.outOfBounds

/-- Assignment `v[i] = x` for a `long long` index `i`. -/
def store (v : List Int) (i : Int) (x : Int) : Except Err (List Int) :=
  if 0 ≤ i ∧ i < v.length then Except.ok (v.set i.toNat x)
  else Except.error Err.outOfBounds

/-- Library constant `vector<long long>::max_size()` of the 64-bit standard
library: `PTRDIFF_MAX / sizeof(long long) = 2^60 - 1`. -/
def max_size : Int := 2 ^ 60 - 1

/-- Method `vector<long long>::resize(k)` with `k` given as a `long long`. A
negative `k` converts to a `size_t` beyond `max_size()`, and so does every
`k > max_size()`: the call throws `std::length_error`. Otherwise the vector is
truncated to `k` entries or padded with zeros up to `k` entries; the allocation
itself is taken to succeed (the memory of the machine is not part of the model). -/
def resize (v : List Int) (k : Int) : Except Err (List Int) :=
  if k < 0 ∨ max_size < k then Except.error Err.lengthError
  else Except.ok (v.take k.toNat ++ List.replicate (k.toNat - v.length) 0)

/-- The global tables `fact` and `inv_fact` (line 19). -/
structure Tables where
  fact : List Int
  inv_fact : List Int
  deriving DecidableEq, Repr

/-- The tables at program start: both vectors are empty. -/
def Tables.initial : Tables := { fact := [], inv_fact := [] }

/-- Local variables of the loop of `mod_exp`, with two ghost counters: the
number of loop bodies executed and the number of modular multiplications
(`(x * y) % mod`) performed. -/
structure ModExpState where
  result : Int
  a : Int
  b : Int
  iterations : Nat
  multiplications : Nat
  deriving DecidableEq, Repr

/-- One execution of the loop body of `mod_exp` (lines 24-26). -/
def mod_exp_body (mod : Int) (s : ModExpState) : Except Err ModExpState :=
  if Int.land s.b 1 ≠ 0 then do
    let result ← cmod (wrap64 (s.result * s.a)) mod
    let a ← cmod (wrap64 (s.a * s.a)) mod
    pure { result := result, a := a, b := s.b >>> (1 : Nat),
           iterations := s.iterations + 1, multiplications := s.multiplications + 2 }
  else do
    let a ← cmod (wrap64 (s.a * s.a)) mod
    pure { result := s.result, a := a, b := s.b >>> (1 : Nat),
           iterations := s.iterations + 1, multiplications := s.multiplications + 1 }

/-- The loop `while (b) { ... }` of `mod_exp` (lines 23-27). -/
def mod_exp_loop : Nat → Int → ModExpState → Except Err ModExpState
  | 0, _, _ => Except.error Err.outOfFuel
  | fuel + 1, mod, s =>
    if s.b = 0 then Except.ok s
    else do
      let s ← mod_exp_body mod s
      mod_exp_loop fuel mod s

/-- Function `mod_exp(a, b, mod)` (lines 21-29), run with the given fuel. -/
def mod_exp_fuel (fuel : Nat) (a b mod : Int) : Except Err Int := do
  let s ← mod_exp_loop fuel mod
    { result := 1, a := a, b := b, iterations := 0, multiplications := 0 }
  pure s.result

/-- Function `mod_exp(a, b, mod)` (lines 21-29). A non-negative `long long`
exponent has at most 63 significant bits, so 64 evaluations of the loop test
are enough for every run that terminates. -/
def mod_exp (a b mod : Int) : Except Err Int :=
  mod_exp_fuel 64 a b mod

/-- The loop `for (ll i = 1; i <= n; i++) fact[i] = (fact[i] * i) % mod;`
(lines 35-37), started at the given `i`. -/
def fact_loop : Nat → Int → Int → Int → List Int → Except Err (List Int)
  | 0, _, _, _, _ => Except.error Err.outOfFuel
  | fuel + 1, n, mod, i, fact =>
    if i ≤ n then do
      let x ← load fact i
      let y ← cmod (wrap64 (x * i)) mod
      let fact ← store fact i y
      fact_loop fuel n mod (wrap64 (i + 1)) fact
    else Except.ok fact

/-- The loop `for (ll i = n - 1; i >= 0; i--)
inv_fact[i] = (inv_fact[i + 1] * (i + 1)) % mod;` (lines 39-41), started at the
given `i`. -/
def inv_fact_loop : Nat → Int → Int → List Int → Except Err (List Int)
  | 0, _, _, _ => Except.error Err.outOfFuel
  | fuel + 1, mod, i, inv_fact =>
    if 0 ≤ i then do
      let x ← load inv_fact (wrap64 (i + 1))
      let y ← cmod (wrap64 (x * wrap64 (i + 1))) mod
      let inv_fact ← store inv_fact i y
      inv_fact_loop fuel mod (wrap64 (i - 1)) inv_fact
    else Except.ok inv_fact

/-- Function `precompute_factorials(n, mod)` (lines 31-42) as a transformer of
the global tables. The two `for` loops run at most `n` bodies, so `n + 1`
evaluations of their tests are enough. -/
def precompute_factorials (T : Tables) (n mod : Int) : Except Err Tables := do
  let fact ← resize T.fact (wrap64 (n + 1))
  let inv_fact ← resize T.inv_fact (wrap64 (n + 1))
  let fact ← store fact 0 1
  let fact ← fact_loop (n.toNat + 1) n mod 1 fact
  let x ← load fact n
  let y ← mod_exp x (wrap64 (mod - 2)) mod
  let inv_fact ← store inv_fact n y
  let inv_fact ← inv_fact_loop (n.toNat + 1) mod (wrap64 (n - 1)) inv_fact
  pure { fact := fact, inv_fact := inv_fact }

/-- Function `ncr(n, r, mod)` (lines 44-47), reading the global tables. -/
def ncr (T : Tables) (n r mod : Int) : Except Err Int :=
  if r > n ∨ r < 0 then Except.ok 0
  else do
    let f ← load T.fact n
    let g ← load T.inv_fact r
    let x ← cmod (wrap64 (f * g)) mod
    let h ← load T.inv_fact (wrap64 (n - r))
    cmod (wrap64 (x * h)) mod

/-- Number of binary digits of a natural number: `0` for `0`, and
`floor (log2 b) + 1` for `b ≥ 1`. -/
def bitlength (b : Nat) : Nat :=
  if b = 0 then 0 else Nat.log 2 b + 1

/-- States of the two global tables that the program can be in: the empty tables
of program start, and the tables left by a call of `precompute_factorials` (the only
function that writes them) that returned. -/
inductive Reachable : Tables → Prop where
  | initial : Reachable Tables.initial
  | call (T T' : Tables) (n mod : Int) :
      Reachable T → precompute_factorials T n mod = Except.ok T' → Reachable T'

/-- Loop body and test of `power` (lines 51-55): the same square-and-multiply
loop as `mod_exp`, except that every product is reduced only when `mod != 0`. -/
def power_loop : Nat → Int → Int → Int → Int → Except Err Int
  | 0, _, _, _, _ => Except.error Err.outOfFuel
  | fuel + 1, mod, result, a, b =>
    if b = 0 then Except.ok result
    else do
      let result ←
        if Int.land b 1 ≠ 0 then
          (if mod ≠ 0 then cmod (wrap64 (result * a)) mod else pure (wrap64 (result * a)))
        else pure result
      let a ← if mod ≠ 0 then cmod (wrap64 (a * a)) mod else pure (wrap64 (a * a))
      power_loop fuel mod result a (b >>> (1 : Nat))

/-- Function `power(a, b, mod)` (lines 48-57); `mod` defaults to `0` in the
source. As for `mod_exp`, 64 evaluations of the loop test are enough for every
run that terminates. -/
def power (a b mod : Int) : Except Err Int := do
  let a ← if mod ≠ 0 then cmod a mod else pure a
  power_loop 64 mod 1 a b

/-- The loop of `tobin` (lines 61-64); a `std::string` is a list of characters
and `s += c` appends at the end. -/
def tobin_loop : Nat → Int → List Char → Except Err (List Char)
  | 0, _, _ => Except.error Err.outOfFuel
  | fuel + 1, a, s =>
    if a > 0 then
      tobin_loop fuel (a >>> (1 : Nat)) (s ++ [if Int.tmod a 2 = 1 then '1' else '0'])
    else Except.ok s

/-- Function `tobin(a)` (lines 59-67). A positive `long long` has at most 63
binary digits, so 64 evaluations of the loop test are enough. -/
def tobin (a : Int) : Except Err (List Char) := do
  let s ← tobin_loop 64 a []
  let s := s.reverse
  pure (if s.isEmpty then ['0'] else s)

/-- The loop `for (char c : s) num = (num << 1) + (c - '0');` of `toint`
(lines 70-72), from the current value of `num`. -/
def toint_loop : Int → List Char → Int
  | num, [] => num
  | num, c :: cs => toint_loop (wrap64 (wrap64 (num * 2) + ((c.toNat : Int) - 48))) cs

/-- Function `toint(s)` (lines 68-74). -/
def toint (s : List Char) : Int :=
  toint_loop 0 s

/-- Two's-complement reduction of an integer into the range of `int`. -/
def wrap32 (x : Int) : Int :=
  (x + 2 ^ 31) % 2 ^ 32 - 2 ^ 31

/-- The loop of `isPrime` (lines 77-81) from the current `int i`; the product
`i * i` and the increment are 32-bit. -/
def isPrime_loop : Nat → Int → Int → Except Err Bool
  | 0, _, _ => Except.error Err.outOfFuel
  | fuel + 1, n, i =>
    if wrap32 (i * i) ≤ n then do
      let r ← cmod n i
      if r = 0 then pure false else isPrime_loop fuel n (wrap32 (i + 1))
    else pure true

/-- Function `isPrime(n)` (lines 75-83). The only loop variable is the 32-bit
`i`, so a run that has not ended after `2^32` tests never ends. -/
def isPrime (n : Int) : Except Err Bool :=
  isPrime_loop (2 ^ 32) n 2

/-- Function `ispowerof2(x)` (lines 84-86): `x && !(x & (x - 1))`. -/
def ispowerof2 (x : Int) : Bool :=
  x ≠ 0 && Int.land x (wrap64 (x - 1)) = 0

/-- The loop `while (power < x) power <<= 1;` of `nearestPowerOf2` (lines 90-92). -/
def nearestPowerOf2_loop : Nat → Int → Int → Except Err Int
  | 0, _, _ => Except.error Err.outOfFuel
  | fuel + 1, x, power =>
    if power < x then nearestPowerOf2_loop fuel x (wrap64 (power * 2))
    else Except.ok power

/-- Function `nearestPowerOf2(x)` (lines 87-94). The variable `power` runs
through `1, 2, ..., 2^62, -2^63, 0, 0, ...`, so a run that has not ended after 64
tests never ends. -/
def nearestPowerOf2 (x : Int) : Except Err Int :=
  if x ≤ 0 then Except.ok 1 else nearestPowerOf2_loop 64 x 1

/-- The input loop of `solve` (lines 109-112): the `i`-th value read is stored as
`a[i] - i`, in 32-bit arithmetic. The list holds the values still to be read. -/
def shift_loop : Int → List Int → List Int
  | _, [] => []
  | i, x :: xs => wrap32 (x - i) :: shift_loop (wrap32 (i + 1)) xs

/-- The scan loop of `solve` (lines 114-119) over the entries from index `i` on:
the first index whose entry is `<= 0`, if there is one. -/
def scan_loop : Int → List Int → Option Int
  | _, [] => none
  | i, x :: xs => if x ≤ 0 then some i else scan_loop (wrap32 (i + 1)) xs

/-- The loop of `std::min_element`: `i` is the position of the next entry, `m`
and `j` are the smallest entry so far and its position; a later entry replaces
them only when it is strictly smaller. -/
def min_element_loop : List Int → Nat → Int → Nat → Nat
  | [], _, _, j => j
  | x :: xs, i, m, j =>
    if x < m then min_element_loop xs (i + 1) x i else min_element_loop xs (i + 1) m j

/-- Library function `std::min_element(a.begin(), a.end())` as an offset from
`a.begin()`: the position of the first smallest entry, `a.end()` for an empty
vector. -/
def min_element : List Int → Nat
  | [] => 0
  | x :: xs => min_element_loop xs 1 x 0

/-- Function `solve()` (lines 105-121) as a function from the `n` integers read
after `n` to the number printed. -/
def solve (input : List Int) : Except Err Int :=
  let a := shift_loop 0 input
  match scan_loop 0 a with
  | some i => Except.ok i
  | none => do
    let m ← load a (min_element a)
    pure (wrap64 (m + min_element a))

/-! ## Arithmetic and table helpers -/

theorem wrap64_eq (x : Int) (h1 : -2 ^ 63 ≤ x) (h2 : x < 2 ^ 63) : wrap64 x = x := by
  unfold wrap64
  rw [Int.emod_eq_of_lt (by omega) (by omega)]
  omega

theorem cmod_pos (x m : Int) (hm : 0 < m) : cmod x m = Except.ok (Int.tmod x m) := by
  unfold cmod
  have h1 : m ≠ 0 := by omega
  have h2 : ¬ (x = -2 ^ 63 ∧ m = -1) := by omega
  rw [if_neg h1, if_neg h2]

theorem cmod_nonneg (x m : Int) (hx : 0 ≤ x) (hm : 0 < m) : cmod x m = Except.ok (x % m) := by
  rw [cmod_pos x m hm, Int.tmod_eq_emod hx (le_of_lt hm)]

theorem load_eq (v : List Int) (i : Int) (h0 : 0 ≤ i) (h1 : i < v.length) :
    load v i = Except.ok (v.getD i.toNat 0) := by
  unfold load
  simp [h0, h1]

theorem store_eq (v : List Int) (i x : Int) (h0 : 0 ≤ i) (h1 : i < v.length) :
    store v i x = Except.ok (v.set i.toNat x) := by
  unfold store
  simp [h0, h1]

theorem getD_bounds (v : List Int) (m : Int) (hv : ∀ x ∈ v, 0 ≤ x ∧ x < m) (k : Nat)
    (hk : k < v.length) : 0 ≤ v.getD k 0 ∧ v.getD k 0 < m := by
  have : v.getD k 0 = v[k] := by simp [List.getD_eq_getElem, hk]
  rw [this]
  exact hv _ (List.getElem_mem hk)

theorem mul_lt_of_lt_two_pow_31 (x y m : Int) (hx0 : 0 ≤ x) (hy0 : 0 ≤ y) (hx : x < m) (hy : y < m)
    (hm : m < 2 ^ 31) : 0 ≤ x * y ∧ x * y < 2 ^ 63 := by
  constructor
  · positivity
  · nlinarith

theorem bitlength_half (b : Nat) (hb : 0 < b) : bitlength b = bitlength (b / 2) + 1 := by
  unfold bitlength
  rw [if_neg (by omega)]
  by_cases h : b / 2 = 0
  · rw [if_pos h]
    have : b < 2 := by omega
    rw [Nat.log_of_lt this]
  · rw [if_neg h]
    have : 2 ≤ b := by omega
    rw [Nat.log_of_one_lt_of_le (by norm_num) this]

theorem lt_two_pow_bitlength (b : Nat) : b < 2 ^ bitlength b := by
  unfold bitlength
  split
  · omega
  · exact Nat.lt_pow_succ_log_self (by norm_num) b

theorem bitlength_le_of_lt_two_pow (b k : Nat) (h : b < 2 ^ k) : bitlength b ≤ k := by
  induction k generalizing b with
  | zero =>
    have : b = 0 := by simpa using h
    simp [bitlength, this]
  | succ k ih =>
    by_cases hb : b = 0
    · simp [bitlength, hb]
    · rw [bitlength_half b (by omega)]
      have : b / 2 < 2 ^ k := by
        rw [pow_succ] at h
        omega
      have := ih _ this
      omega

theorem land_one_ne_zero_iff (b : Int) (hb : 0 ≤ b) : Int.land b 1 ≠ 0 ↔ b % 2 = 1 := by
  obtain ⟨k, rfl⟩ := Int.eq_ofNat_of_zero_le hb
  have h : Int.land (k : Int) 1 = ((k &&& 1 : Nat) : Int) := rfl
  rw [h, Nat.and_one_is_mod]
  omega

theorem shiftRight_one (b : Int) : b >>> (1 : Nat) = b / 2 := by
  rw [Int.shiftRight_eq_div_pow]
  norm_num

theorem mod_exp_body_eq (mod : Int) (s : ModExpState) (hm : 0 < mod) :
    mod_exp_body mod s = Except.ok
      { result := if Int.land s.b 1 ≠ 0 then Int.tmod (wrap64 (s.result * s.a)) mod else s.result,
        a := Int.tmod (wrap64 (s.a * s.a)) mod,
        b := s.b / 2,
        iterations := s.iterations + 1,
        multiplications := s.multiplications + (if Int.land s.b 1 ≠ 0 then 2 else 1) } := by
  unfold mod_exp_body
  by_cases h : Int.land s.b 1 ≠ 0
  · simp only [if_pos h, cmod_pos _ _ hm, bind, Except.bind, pure, Except.pure, shiftRight_one]
  · simp only [if_neg h, cmod_pos _ _ hm, bind, Except.bind, pure, Except.pure, shiftRight_one]

theorem mod_exp_loop_terminates (mod : Int) (hm : 0 < mod) :
    ∀ (fuel : Nat) (s : ModExpState), 0 ≤ s.b → bitlength s.b.toNat < fuel →
      ∃ s', mod_exp_loop fuel mod s = Except.ok s' ∧
        s'.iterations = s.iterations + bitlength s.b.toNat ∧
        s'.multiplications ≤ s.multiplications + 2 * bitlength s.b.toNat := by
  intro fuel
  induction fuel with
  | zero => intro s _ h; omega
  | succ fuel ih =>
    intro s hb hfuel
    unfold mod_exp_loop
    by_cases hz : s.b = 0
    · refine ⟨s, by simp [hz], ?_, ?_⟩ <;> simp [hz, bitlength]
    · rw [if_neg hz, mod_exp_body_eq mod s hm]
      simp only [bind, Except.bind]
      have hpos : 0 < s.b.toNat := by omega
      have hhalf : (s.b / 2).toNat = s.b.toNat / 2 := by omega
      have hbl := bitlength_half s.b.toNat hpos
      obtain ⟨s', hs', hit, hmul⟩ := ih
        { result := if Int.land s.b 1 ≠ 0 then Int.tmod (wrap64 (s.result * s.a)) mod else s.result,
          a := Int.tmod (wrap64 (s.a * s.a)) mod,
          b := s.b / 2,
          iterations := s.iterations + 1,
          multiplications := s.multiplications + (if Int.land s.b 1 ≠ 0 then 2 else 1) }
        (by simp only; omega) (by simp only; rw [hhalf]; omega)
      refine ⟨s', hs', ?_, ?_⟩
      · rw [hit]; simp only; rw [hhalf]; omega
      · refine le_trans hmul ?_
        simp only
        rw [hhalf]
        split <;> omega

theorem mod_exp_loop_out_of_fuel (mod : Int) (hm : 0 < mod) :
    ∀ (fuel : Nat) (s : ModExpState), 0 ≤ s.b → fuel ≤ bitlength s.b.toNat →
      mod_exp_loop fuel mod s = Except.error Err.outOfFuel := by
  intro fuel
  induction fuel with
  | zero => intro s _ _; rfl
  | succ fuel ih =>
    intro s hb hfuel
    have hz : s.b ≠ 0 := by
      intro h
      rw [h] at hfuel
      simp [bitlength] at hfuel
    unfold mod_exp_loop
    rw [if_neg hz, mod_exp_body_eq mod s hm]
    simp only [bind, Except.bind]
    have hhalf : (s.b / 2).toNat = s.b.toNat / 2 := by omega
    have hbl := bitlength_half s.b.toNat (by omega)
    exact ih _ (by simp only; omega) (by simp only; rw [hhalf]; omega)

theorem mod_exp_loop_value (mod B : Int) (hm : 0 < mod) (hB : B * B < 2 ^ 63)
    (hclos : ∀ z : Int, 0 ≤ z → z ≤ B * B → z % mod ≤ B) :
    ∀ (fuel : Nat) (s : ModExpState), 0 ≤ s.b → bitlength s.b.toNat < fuel →
      0 ≤ s.result → s.result ≤ B → 0 ≤ s.a → s.a ≤ B →
      ∃ s', mod_exp_loop fuel mod s = Except.ok s' ∧
        s'.result = if s.b = 0 then s.result else (s.result * s.a ^ s.b.toNat) % mod := by
  intro fuel
  induction fuel with
  | zero => intro s _ h; omega
  | succ fuel ih =>
    intro s hb hfuel hr0 hrB ha0 haB
    unfold mod_exp_loop
    by_cases hz : s.b = 0
    · exact ⟨s, by simp [hz], by simp [hz]⟩
    · rw [if_neg hz, mod_exp_body_eq mod s hm]
      simp only [bind, Except.bind]
      have hhalf : (s.b / 2).toNat = s.b.toNat / 2 := by omega
      have hbl := bitlength_half s.b.toNat (by omega)
      have hra0 : 0 ≤ s.result * s.a := mul_nonneg hr0 ha0
      have hraB : s.result * s.a ≤ B * B := mul_le_mul hrB haB ha0 (le_trans hr0 hrB)
      have haa0 : 0 ≤ s.a * s.a := mul_nonneg ha0 ha0
      have haaB : s.a * s.a ≤ B * B := mul_le_mul haB haB ha0 (le_trans ha0 haB)
      have hwr : wrap64 (s.result * s.a) = s.result * s.a := wrap64_eq _ (by omega) (by omega)
      have hwa : wrap64 (s.a * s.a) = s.a * s.a := wrap64_eq _ (by omega) (by omega)
      rw [hwr, hwa, Int.tmod_eq_emod hra0 (le_of_lt hm), Int.tmod_eq_emod haa0 (le_of_lt hm)]
      have hodd := land_one_ne_zero_iff s.b hb
      obtain ⟨s', hs', hres⟩ := ih
        { result := if Int.land s.b 1 ≠ 0 then (s.result * s.a) % mod else s.result,
          a := (s.a * s.a) % mod,
          b := s.b / 2,
          iterations := s.iterations + 1,
          multiplications := s.multiplications + (if Int.land s.b 1 ≠ 0 then 2 else 1) }
        (by simp only; omega) (by simp only; rw [hhalf]; omega)
        (by simp only; split
            · exact Int.emod_nonneg _ (by omega)
            · exact hr0)
        (by simp only; split
            · exact hclos _ hra0 hraB
            · exact hrB)
        (by simp only; exact Int.emod_nonneg _ (by omega))
        (by simp only; exact hclos _ haa0 haaB)
      refine ⟨s', hs', ?_⟩
      rw [hres, if_neg hz]
      simp only
      have hsq : ∀ k : Nat, ((s.a * s.a) % mod) ^ k ≡ s.a ^ (2 * k) [ZMOD mod] := by
        intro k
        have h := (Int.mod_modEq (s.a * s.a) mod).pow k
        have e : (s.a * s.a) ^ k = s.a ^ (2 * k) := by rw [pow_mul, pow_two]
        rw [e] at h
        exact h
      by_cases ho : Int.land s.b 1 ≠ 0
      · have hb1 : s.b % 2 = 1 := hodd.mp ho
        rw [if_pos ho]
        by_cases hh : s.b / 2 = 0
        · have h1 : s.b.toNat = 1 := by omega
          rw [if_pos hh, h1, pow_one]
        · rw [if_neg hh, hhalf]
          have hk : s.b.toNat = 2 * (s.b.toNat / 2) + 1 := by omega
          have h := (Int.mod_modEq (s.result * s.a) mod).mul (hsq (s.b.toNat / 2))
          have e : s.result * s.a * s.a ^ (2 * (s.b.toNat / 2)) = s.result * s.a ^ s.b.toNat := by
            conv_rhs => rw [hk]
            rw [pow_succ]
            ring
          rw [e] at h
          exact h
      · have hb0 : s.b % 2 = 0 := by
          have := mt hodd.mpr ho
          omega
        have hh : s.b / 2 ≠ 0 := by omega
        rw [if_neg ho, if_neg hh, hhalf]
        have hk : s.b.toNat = 2 * (s.b.toNat / 2) := by omega
        have h := (Int.ModEq.refl s.result).mul (hsq (s.b.toNat / 2))
        rw [← hk] at h
        exact h

theorem bitlength_toNat_lt_64 (b : Int) (hb : b < 2 ^ 63) : bitlength b.toNat < 64 := by
  have h : b.toNat < 2 ^ 63 := by omega
  have := bitlength_le_of_lt_two_pow _ 63 h
  omega

theorem mod_exp_eq_of_loop (a b mod : Int) (s' : ModExpState)
    (h : mod_exp_loop 64 mod
      { result := 1, a := a, b := b, iterations := 0, multiplications := 0 } = Except.ok s') :
    mod_exp a b mod = Except.ok s'.result := by
  unfold mod_exp mod_exp_fuel
  rw [h]
  rfl

theorem bind_eq_ok {α β : Type} (x : Except Err α) (f : α → Except Err β) (b : β) :
    (x >>= f) = Except.ok b ↔ ∃ a, x = Except.ok a ∧ f a = Except.ok b := by
  cases x <;> simp [bind, Except.bind]

theorem wrap64_range (x : Int) : -2 ^ 63 ≤ wrap64 x ∧ wrap64 x < 2 ^ 63 := by
  unfold wrap64
  have h1 : 0 ≤ (x + 2 ^ 63) % 2 ^ 64 := Int.emod_nonneg _ (by norm_num)
  have h2 : (x + 2 ^ 63) % 2 ^ 64 < 2 ^ 64 := Int.emod_lt_of_pos _ (by norm_num)
  constructor <;> omega

theorem max_size_eq : max_size = 2 ^ 60 - 1 := rfl

theorem resize_eq (v : List Int) (k : Int) (hk : 0 ≤ k) (hk2 : k ≤ max_size) :
    resize v k = Except.ok (v.take k.toNat ++ List.replicate (k.toNat - v.length) 0) := by
  unfold resize
  rw [if_neg (by omega)]

theorem resize_range (v v' : List Int) (k : Int) (h : resize v k = Except.ok v') :
    0 ≤ k ∧ k ≤ max_size := by
  unfold resize at h
  split at h
  · cases h
  · constructor <;> omega

theorem resize_length (v v' : List Int) (k : Int) (h : resize v k = Except.ok v') :
    (v'.length : Int) = k := by
  unfold resize at h
  split at h
  · cases h
  · cases h
    simp only [List.length_append, List.length_take, List.length_replicate]
    omega

theorem store_length (v v' : List Int) (i x : Int) (h : store v i x = Except.ok v') :
    v'.length = v.length := by
  unfold store at h
  split at h
  · cases h
    simp
  · cases h

theorem fact_loop_length (n mod : Int) :
    ∀ (fuel : Nat) (i : Int) (fact fact' : List Int),
      fact_loop fuel n mod i fact = Except.ok fact' → fact'.length = fact.length := by
  intro fuel
  induction fuel with
  | zero => intro i fact fact' h; cases h
  | succ fuel ih =>
    intro i fact fact' h
    unfold fact_loop at h
    split at h
    · simp only [bind_eq_ok] at h
      obtain ⟨x, _, y, _, fact1, hst, hrec⟩ := h
      rw [ih _ _ _ hrec, store_length _ _ _ _ hst]
    · cases h
      rfl

theorem inv_fact_loop_length (mod : Int) :
    ∀ (fuel : Nat) (i : Int) (inv inv' : List Int),
      inv_fact_loop fuel mod i inv = Except.ok inv' → inv'.length = inv.length := by
  intro fuel
  induction fuel with
  | zero => intro i inv inv' h; cases h
  | succ fuel ih =>
    intro i inv inv' h
    unfold inv_fact_loop at h
    split at h
    · simp only [bind_eq_ok] at h
      obtain ⟨x, _, y, _, inv1, hst, hrec⟩ := h
      rw [ih _ _ _ hrec, store_length _ _ _ _ hst]
    · cases h
      rfl

theorem fact_loop_returns (n mod : Int) (hm : 0 < mod) (hn : n + 1 < 2 ^ 63) :
    ∀ (fuel : Nat) (i : Int) (fact : List Int), 0 ≤ i → n < fact.length →
      (n + 1 - i).toNat < fuel → ∃ fact', fact_loop fuel n mod i fact = Except.ok fact' := by
  intro fuel
  induction fuel with
  | zero => intro i fact _ _ h; omega
  | succ fuel ih =>
    intro i fact hi hlen hfuel
    unfold fact_loop
    by_cases hin : i ≤ n
    · rw [if_pos hin, load_eq _ _ hi (by omega)]
      simp only [bind, Except.bind, cmod_pos _ _ hm]
      rw [store_eq _ _ _ hi (by omega)]
      simp only []
      rw [wrap64_eq (i + 1) (by omega) (by omega)]
      exact ih _ _ (by omega) (by simp only [List.length_set]; omega) (by omega)
    · rw [if_neg hin]
      exact ⟨_, rfl⟩

theorem inv_fact_loop_returns (mod : Int) (hm : 0 < mod) :
    ∀ (fuel : Nat) (i : Int) (inv : List Int), -1 ≤ i → i + 1 < inv.length → i + 1 < 2 ^ 63 →
      (i + 1).toNat < fuel → ∃ inv', inv_fact_loop fuel mod i inv = Except.ok inv' := by
  intro fuel
  induction fuel with
  | zero => intro i inv _ _ _ h; omega
  | succ fuel ih =>
    intro i inv hi hlen h63 hfuel
    unfold inv_fact_loop
    by_cases hin : 0 ≤ i
    · rw [if_pos hin, wrap64_eq (i + 1) (by omega) (by omega), load_eq _ _ (by omega) hlen]
      simp only [bind, Except.bind, cmod_pos _ _ hm]
      rw [store_eq _ _ _ hin (by omega)]
      simp only []
      rw [wrap64_eq (i - 1) (by omega) (by omega)]
      exact ih _ _ (by omega) (by simp only [List.length_set]; omega) (by omega) (by omega)
    · rw [if_neg hin]
      exact ⟨_, rfl⟩

theorem mod_exp_returns (a b mod : Int) (hb : 0 ≤ b) (hb64 : b < 2 ^ 63) (hm : 0 < mod) :
    ∃ r, mod_exp a b mod = Except.ok r := by
  obtain ⟨s', hs', _⟩ := mod_exp_loop_terminates mod hm 64
    { result := 1, a := a, b := b, iterations := 0, multiplications := 0 } hb
    (bitlength_toNat_lt_64 b hb64)
  exact ⟨_, mod_exp_eq_of_loop _ _ _ _ hs'⟩

theorem precompute_factorials_returns (T : Tables) (n mod : Int) (h0 : 0 ≤ n)
    (hmax : n + 1 ≤ max_size) (hm : 2 ≤ mod) (hm64 : mod < 2 ^ 63) :
    ∃ T', precompute_factorials T n mod = Except.ok T' := by
  have hn : n + 1 < 2 ^ 63 := by
    rw [max_size_eq] at hmax
    omega
  have hw : wrap64 (n + 1) = n + 1 := wrap64_eq _ (by omega) (by omega)
  obtain ⟨fact0, hfact0⟩ : ∃ v, resize T.fact (n + 1) = Except.ok v :=
    ⟨_, resize_eq _ _ (by omega) hmax⟩
  obtain ⟨inv0, hinv0⟩ : ∃ v, resize T.inv_fact (n + 1) = Except.ok v :=
    ⟨_, resize_eq _ _ (by omega) hmax⟩
  have hl0 := resize_length _ _ _ hfact0
  have hli0 := resize_length _ _ _ hinv0
  obtain ⟨fact1, hfact1⟩ : ∃ v, store fact0 0 1 = Except.ok v :=
    ⟨_, store_eq _ _ _ (le_refl 0) (by omega)⟩
  have hl1 := store_length _ _ _ _ hfact1
  obtain ⟨fact2, hfact2⟩ := fact_loop_returns n mod (by omega) hn (n.toNat + 1) 1 fact1
    (by norm_num) (by omega) (by omega)
  have hl2 := fact_loop_length _ _ _ _ _ _ hfact2
  obtain ⟨y, hy⟩ := mod_exp_returns (fact2.getD n.toNat 0) (mod - 2) mod (by omega) (by omega)
    (by omega)
  obtain ⟨inv1, hinv1⟩ : ∃ v, store inv0 n y = Except.ok v :=
    ⟨_, store_eq _ _ _ h0 (by omega)⟩
  have hli1 := store_length _ _ _ _ hinv1
  obtain ⟨inv2, hinv2⟩ := inv_fact_loop_returns mod (by omega) (n.toNat + 1) (n - 1) inv1
    (by omega) (by omega) (by omega) (by omega)
  refine ⟨{ fact := fact2, inv_fact := inv2 }, ?_⟩
  unfold precompute_factorials
  rw [hw, hfact0, hinv0]
  simp only [bind, Except.bind]
  rw [hfact1]
  simp only []
  rw [hfact2]
  simp only []
  rw [load_eq _ _ h0 (by omega)]
  simp only []
  rw [wrap64_eq (mod - 2) (by omega) (by omega), hy]
  simp only []
  rw [hinv1]
  simp only []
  rw [wrap64_eq (n - 1) (by omega) (by omega), hinv2]
  rfl

theorem precompute_factorials_lengths (T T' : Tables) (n mod : Int) (h0 : 0 ≤ n)
    (hn : n < 2 ^ 63) (h : precompute_factorials T n mod = Except.ok T') :
    (T'.fact.length : Int) = n + 1 ∧ (T'.inv_fact.length : Int) = n + 1 := by
  unfold precompute_factorials at h
  simp only [bind_eq_ok] at h
  obtain ⟨fact0, hfact0, inv0, hinv0, fact1, hfact1, fact2, hfact2, x, _, y, _, inv1, hinv1,
    inv2, hinv2, hT⟩ := h
  have hl0 := resize_length _ _ _ hfact0
  have hli0 := resize_length _ _ _ hinv0
  have hl1 := store_length _ _ _ _ hfact1
  have hl2 := fact_loop_length _ _ _ _ _ _ hfact2
  have hli1 := store_length _ _ _ _ hinv1
  have hli2 := inv_fact_loop_length _ _ _ _ _ hinv2
  have hwr := wrap64_range (n + 1)
  have hw : wrap64 (n + 1) = n + 1 := by
    by_cases hlt : n + 1 < 2 ^ 63
    · exact wrap64_eq _ (by omega) hlt
    · have hn1 : n + 1 = 2 ^ 63 := by omega
      have hneg : wrap64 (n + 1) = -2 ^ 63 := by
        rw [hn1]
        decide
      omega
  cases hT
  simp only
  constructor <;> omega

theorem cmod_ne_outOfBounds (x m : Int) : cmod x m ≠ Except.error Err.outOfBounds := by
  unfold cmod
  split
  · simp
  · split <;> simp

theorem getD_one_cons_replicate (m k : Nat) (hk : 1 ≤ k) :
    ((1 : Int) :: List.replicate m 0).getD k 0 = 0 := by
  cases k with
  | zero => omega
  | succ k =>
    rw [List.getD_cons_succ, List.getD_eq_getElem?_getD, List.getElem?_replicate]
    split <;> rfl

theorem set_one_cons_replicate (m k : Nat) (hk : 1 ≤ k) :
    ((1 : Int) :: List.replicate m 0).set k 0 = 1 :: List.replicate m 0 := by
  cases k with
  | zero => omega
  | succ k => rw [List.set_cons_succ, List.set_replicate_self]

theorem cmod_zero_ok (m y : Int) (h : cmod 0 m = Except.ok y) : y = 0 := by
  unfold cmod at h
  split at h
  · cases h
  · split at h
    · cases h
    · cases h
      exact Int.zero_tmod m

theorem load_ok (v : List Int) (i x : Int) (h : load v i = Except.ok x) :
    0 ≤ i ∧ i < v.length ∧ x = v.getD i.toNat 0 := by
  unfold load at h
  split at h
  · next hc =>
    cases h
    exact ⟨hc.1, hc.2, rfl⟩
  · cases h

theorem store_ok (v v' : List Int) (i x : Int) (h : store v i x = Except.ok v') :
    0 ≤ i ∧ i < v.length ∧ v' = v.set i.toNat x := by
  unfold store at h
  split at h
  · next hc =>
    cases h
    exact ⟨hc.1, hc.2, rfl⟩
  · cases h

theorem wrap64_zero : wrap64 0 = 0 := by decide

theorem fact_loop_fixed (n mod : Int) (m : Nat) (hm : (m : Int) + 1 < 2 ^ 63) :
    ∀ (fuel : Nat) (i : Int) (fact' : List Int), 1 ≤ i →
      fact_loop fuel n mod i (1 :: List.replicate m 0) = Except.ok fact' →
      fact' = 1 :: List.replicate m 0 := by
  intro fuel
  induction fuel with
  | zero => intro i fact' _ h; cases h
  | succ fuel ih =>
    intro i fact' hi h
    unfold fact_loop at h
    split at h
    · simp only [bind_eq_ok] at h
      obtain ⟨x, hx, y, hy, fact1, hst, hrec⟩ := h
      obtain ⟨_, hlen, hxv⟩ := load_ok _ _ _ hx
      rw [getD_one_cons_replicate m i.toNat (by omega)] at hxv
      rw [hxv, zero_mul, wrap64_zero] at hy
      have hy0 := cmod_zero_ok _ _ hy
      obtain ⟨_, _, hf1⟩ := store_ok _ _ _ _ hst
      rw [hy0, set_one_cons_replicate m i.toNat (by omega)] at hf1
      simp only [List.length_cons, List.length_replicate] at hlen
      rw [hf1, wrap64_eq (i + 1) (by omega) (by push_cast at hlen; omega)] at hrec
      exact ih _ _ (by omega) hrec
    · cases h
      rfl

theorem eq_one_cons_replicate (w : List Int) (h0 : w.getD 0 0 = 1)
    (hz : ∀ k : Nat, 1 ≤ k → w.getD k 0 = 0) : w = 1 :: List.replicate (w.length - 1) 0 := by
  cases w with
  | nil => simp at h0
  | cons a t =>
    simp only [List.getD_cons_zero] at h0
    rw [h0]
    congr 1
    rw [List.eq_replicate_iff]
    refine ⟨by simp, ?_⟩
    intro b hb
    obtain ⟨j, hj, rfl⟩ := List.getElem_of_mem hb
    have := hz (j + 1) (by omega)
    rw [List.getD_cons_succ, List.getD_eq_getElem _ _ hj] at this
    exact this

theorem resize_getD (v : List Int) (K j : Nat) (hz : ∀ k : Nat, 1 ≤ k → v.getD k 0 = 0)
    (hj : 1 ≤ j) : (v.take K ++ List.replicate (K - v.length) 0).getD j 0 = 0 := by
  simp only [List.getD_eq_getElem?_getD] at hz ⊢
  rw [List.getElem?_append]
  split
  · rw [List.getElem?_take]
    split
    · exact hz j hj
    · rfl
  · rw [List.getElem?_replicate]
    split <;> rfl

theorem resize_store_zero_tail (v f w : List Int) (k : Int)
    (hz : ∀ j : Nat, 1 ≤ j → v.getD j 0 = 0)
    (hf : resize v k = Except.ok f) (hw : store f 0 1 = Except.ok w) :
    w = 1 :: List.replicate (k.toNat - 1) 0 ∧ 0 < k := by
  have hlen := resize_length _ _ _ hf
  unfold resize at hf
  split at hf
  · cases hf
  · cases hf
    obtain ⟨_, hpos, hset⟩ := store_ok _ _ _ _ hw
    rw [Int.toNat_zero] at hset
    have hwl : w.length = k.toNat := by
      rw [hset, List.length_set]
      omega
    have h0 : w.getD 0 0 = 1 := by
      rw [hset, List.getD_eq_getElem?_getD, List.getElem?_set_self (by omega)]
      rfl
    have hzw : ∀ j : Nat, 1 ≤ j → w.getD j 0 = 0 := by
      intro j hj
      have := resize_getD v k.toNat j hz hj
      rw [List.getD_eq_getElem?_getD] at this ⊢
      rw [hset, List.getElem?_set_ne (by omega)]
      exact this
    have := eq_one_cons_replicate w h0 hzw
    rw [hwl] at this
    exact ⟨this, by omega⟩

theorem inv_fact_loop_congr (mod : Int) :
    ∀ (fuel : Nat) (i : Int) (M1 M2 : List Int), -1 ≤ i → i + 1 < 2 ^ 63 →
      M1.length = M2.length → (∀ k : Nat, i < (k : Int) → M1[k]? = M2[k]?) →
      inv_fact_loop fuel mod i M1 = inv_fact_loop fuel mod i M2 := by
  intro fuel
  induction fuel with
  | zero => intro i M1 M2 _ _ _ _; rfl
  | succ fuel ih =>
    intro i M1 M2 hi h63 hlen hagree
    unfold inv_fact_loop
    by_cases h0 : 0 ≤ i
    · rw [if_pos h0, if_pos h0, wrap64_eq (i + 1) (by omega) (by omega),
        wrap64_eq (i - 1) (by omega) (by omega)]
      have hl : load M1 (i + 1) = load M2 (i + 1) := by
        unfold load
        rw [hlen, List.getD_eq_getElem?_getD, List.getD_eq_getElem?_getD,
          hagree (i + 1).toNat (by omega)]
      rw [hl]
      cases load M2 (i + 1) with
      | error e => rfl
      | ok x =>
        simp only [bind, Except.bind]
        cases cmod (wrap64 (x * (i + 1))) mod with
        | error e => rfl
        | ok y =>
          simp only []
          by_cases hin : i < M2.length
          · rw [store_eq _ _ _ h0 (by omega), store_eq _ _ _ h0 hin]
            simp only []
            refine ih _ _ _ (by omega) (by omega) (by simp only [List.length_set]; exact hlen) ?_
            intro k hk
            rw [List.getElem?_set, List.getElem?_set, hlen]
            by_cases hik : i.toNat = k
            · rw [if_pos hik, if_pos hik]
            · rw [if_neg hik, if_neg hik]
              exact hagree k (by omega)
          · unfold store
            rw [if_neg (by omega), if_neg (by omega)]
    · rw [if_neg h0, if_neg h0]
      congr 1
      exact List.ext_getElem? (fun k => hagree k (by omega))

theorem precompute_factorials_eq_initial (T : Tables)
    (hz : ∀ j : Nat, 1 ≤ j → T.fact.getD j 0 = 0) (n mod : Int) :
    precompute_factorials T n mod = precompute_factorials Tables.initial n mod := by
  have hzi : ∀ j : Nat, 1 ≤ j → Tables.initial.fact.getD j 0 = 0 := by
    intro j _
    rfl
  have hkr := wrap64_range (n + 1)
  unfold precompute_factorials
  by_cases hbad : wrap64 (n + 1) < 0 ∨ max_size < wrap64 (n + 1)
  · simp only [resize, if_pos hbad, bind, Except.bind]
  · have hk : 0 ≤ wrap64 (n + 1) := by omega
    have hk2 : wrap64 (n + 1) ≤ max_size := by omega
    obtain ⟨f, hf⟩ : ∃ v, resize T.fact (wrap64 (n + 1)) = Except.ok v :=
      ⟨_, resize_eq _ _ hk hk2⟩
    rw [hf]
    have hfl := resize_length _ _ _ hf
    obtain ⟨f0, hf0⟩ : ∃ v, resize Tables.initial.fact (wrap64 (n + 1)) = Except.ok v :=
      ⟨_, resize_eq _ _ hk hk2⟩
    obtain ⟨g, hg⟩ : ∃ v, resize T.inv_fact (wrap64 (n + 1)) = Except.ok v :=
      ⟨_, resize_eq _ _ hk hk2⟩
    obtain ⟨g0, hg0⟩ : ∃ v, resize Tables.initial.inv_fact (wrap64 (n + 1)) = Except.ok v :=
      ⟨_, resize_eq _ _ hk hk2⟩
    have hf0l := resize_length _ _ _ hf0
    have hgl := resize_length _ _ _ hg
    have hg0l := resize_length _ _ _ hg0
    rw [hf0, hg, hg0]
    simp only [bind, Except.bind]
    by_cases hk0 : wrap64 (n + 1) = 0
    · unfold store
      rw [if_neg (by omega), if_neg (by omega)]
    · obtain ⟨w, hw⟩ : ∃ v, store f 0 1 = Except.ok v := ⟨_, store_eq _ _ _ (le_refl 0) (by omega)⟩
      obtain ⟨w0, hw0⟩ : ∃ v, store f0 0 1 = Except.ok v :=
        ⟨_, store_eq _ _ _ (le_refl 0) (by omega)⟩
      have e1 := (resize_store_zero_tail _ _ _ _ hz hf hw).1
      have e2 := (resize_store_zero_tail _ _ _ _ hzi hf0 hw0).1
      rw [hw, hw0, e1, e2]
      simp only []
      cases fact_loop (n.toNat + 1) n mod 1 (1 :: List.replicate ((wrap64 (n + 1)).toNat - 1) 0) with
      | error e => rfl
      | ok fact2 =>
        simp only []
        cases load fact2 n with
        | error e => rfl
        | ok x =>
          simp only []
          cases mod_exp x (wrap64 (mod - 2)) mod with
          | error e => rfl
          | ok y =>
            simp only []
            by_cases hin : 0 ≤ n ∧ n < g.length
            · rw [store_eq _ _ _ hin.1 hin.2, store_eq _ _ _ hin.1 (by omega)]
              simp only []
              have hwn : wrap64 (n - 1) = n - 1 := wrap64_eq _ (by omega) (by omega)
              have hw1 : wrap64 (n + 1) = n + 1 := wrap64_eq _ (by omega) (by omega)
              rw [hw1] at hgl hg0l
              rw [hwn, inv_fact_loop_congr mod (n.toNat + 1) (n - 1) (g.set n.toNat y)
                (g0.set n.toNat y) (by omega) (by omega)
                (by simp only [List.length_set]; omega) ?_]
              intro k hk
              rw [List.getElem?_set, List.getElem?_set]
              have hlen : g.length = g0.length := by omega
              rw [hlen]
              by_cases hik : n.toNat = k
              · rw [if_pos hik, if_pos hik]
              · rw [if_neg hik, if_neg hik, List.getElem?_eq_none (by omega),
                  List.getElem?_eq_none (by omega)]
            · unfold store
              rw [if_neg hin, if_neg (by omega)]

theorem precompute_factorials_fact (T T' : Tables) (n mod : Int)
    (hz : ∀ j : Nat, 1 ≤ j → T.fact.getD j 0 = 0)
    (h : precompute_factorials T n mod = Except.ok T') :
    T'.fact = 1 :: List.replicate ((wrap64 (n + 1)).toNat - 1) 0 := by
  unfold precompute_factorials at h
  simp only [bind_eq_ok] at h
  obtain ⟨fact0, hfact0, inv0, _, fact1, hfact1, fact2, hfact2, x, _, y, _, inv1, _,
    inv2, _, hT⟩ := h
  obtain ⟨e1, hk⟩ := resize_store_zero_tail _ _ _ _ hz hfact0 hfact1
  have hkr := wrap64_range (n + 1)
  rw [e1] at hfact2
  have e2 := fact_loop_fixed n mod ((wrap64 (n + 1)).toNat - 1) (by omega) _ 1 fact2
    (le_refl 1) hfact2
  cases hT
  exact e2

theorem reachable_zero_tail (T : Tables) (hT : Reachable T) :
    ∀ j : Nat, 1 ≤ j → T.fact.getD j 0 = 0 := by
  induction hT with
  | initial =>
    intro j _
    rfl
  | call T T' n mod _ hcall ih =>
    intro j hj
    rw [precompute_factorials_fact T T' n mod ih hcall]
    exact getD_one_cons_replicate _ j hj

theorem getD_replicate_zero (m k : Nat) : (List.replicate m (0 : Int)).getD k 0 = 0 := by
  rw [List.getD_eq_getElem?_getD, List.getElem?_replicate]
  split <;> rfl

theorem cmod_zero (m : Int) (hm : 0 < m) : cmod 0 m = Except.ok 0 := by
  rw [cmod_pos 0 m hm, Int.zero_tmod]

theorem inv_fact_loop_zeros (mod : Int) (hm : 0 < mod) (m : Nat) :
    ∀ (fuel : Nat) (i : Int), -1 ≤ i → i + 1 < m → i + 1 < 2 ^ 63 → (i + 1).toNat < fuel →
      inv_fact_loop fuel mod i (List.replicate m 0) = Except.ok (List.replicate m 0) := by
  intro fuel
  induction fuel with
  | zero => intro i _ _ _ h; omega
  | succ fuel ih =>
    intro i hi hlen h63 hfuel
    unfold inv_fact_loop
    by_cases hin : 0 ≤ i
    · rw [if_pos hin, wrap64_eq (i + 1) (by omega) (by omega),
        load_eq _ _ (by omega) (by rw [List.length_replicate]; exact hlen), getD_replicate_zero]
      simp only [bind, Except.bind]
      rw [zero_mul, wrap64_zero, cmod_zero mod hm]
      simp only []
      rw [store_eq _ _ _ hin (by rw [List.length_replicate]; omega), List.set_replicate_self]
      simp only []
      rw [wrap64_eq (i - 1) (by omega) (by omega)]
      exact ih _ (by omega) (by omega) (by omega) (by omega)
    · rw [if_neg hin]

theorem mod_exp_zero (b mod : Int) (hb : 1 ≤ b) (hb64 : b < 2 ^ 63) (hm : 0 < mod) :
    mod_exp 0 b mod = Except.ok 0 := by
  have hclos : ∀ z : Int, 0 ≤ z → z ≤ 1 * 1 → z % mod ≤ 1 := by
    intro z hz0 hz1
    have h1 : z % mod < mod := Int.emod_lt_of_pos _ hm
    by_cases hone : mod = 1
    · omega
    · have hz : z = 0 ∨ z = 1 := by omega
      rcases hz with rfl | rfl
      · simp
      · rw [Int.emod_eq_of_lt (by norm_num) (by omega)]
  obtain ⟨s', hs', hres⟩ := mod_exp_loop_value mod 1 hm (by norm_num) hclos 64
    { result := 1, a := 0, b := b, iterations := 0, multiplications := 0 }
    (by simp only; omega) (bitlength_toNat_lt_64 _ hb64) (by norm_num) (le_refl 1) (le_refl 0)
    (by norm_num)
  rw [mod_exp_eq_of_loop _ _ _ _ hs', hres]
  simp only
  rw [if_neg (by omega), zero_pow (by omega), mul_zero, Int.zero_emod]

theorem mod_exp_one (b mod : Int) (hb : 0 ≤ b) (hb64 : b < 2 ^ 63) (hm : 2 ≤ mod) :
    mod_exp 1 b mod = Except.ok 1 := by
  have hclos : ∀ z : Int, 0 ≤ z → z ≤ 1 * 1 → z % mod ≤ 1 := by
    intro z hz0 hz1
    have hz : z = 0 ∨ z = 1 := by omega
    rcases hz with rfl | rfl
    · simp
    · rw [Int.emod_eq_of_lt (by norm_num) (by omega)]
  obtain ⟨s', hs', hres⟩ := mod_exp_loop_value mod 1 (by omega) (by norm_num) hclos 64
    { result := 1, a := 1, b := b, iterations := 0, multiplications := 0 }
    hb (bitlength_toNat_lt_64 _ hb64) (by norm_num) (le_refl 1) (by norm_num) (le_refl 1)
  rw [mod_exp_eq_of_loop _ _ _ _ hs', hres]
  simp only
  split
  · rfl
  · rw [one_pow, mul_one, Int.emod_eq_of_lt (by norm_num) (by omega)]

theorem precompute_factorials_initial_zero (p : Int) (hp : 2 ≤ p) (hp64 : p < 2 ^ 63) :
    precompute_factorials Tables.initial 0 p = Except.ok { fact := [1], inv_fact := [1] } := by
  have h1 : resize Tables.initial.fact (wrap64 (0 + 1)) = Except.ok [0] := by decide
  have h2 : resize Tables.initial.inv_fact (wrap64 (0 + 1)) = Except.ok [0] := by decide
  have h3 : store [0] 0 1 = Except.ok [1] := by decide
  have h4 : fact_loop ((0 : Int).toNat + 1) 0 p 1 [1] = Except.ok [1] := by
    simp [fact_loop]
  have h5 : load [1] 0 = Except.ok 1 := by decide
  have h6 : inv_fact_loop ((0 : Int).toNat + 1) p (wrap64 (0 - 1)) [1] = Except.ok [1] := by
    have : wrap64 (0 - 1) = -1 := by decide
    rw [this]
    simp [inv_fact_loop]
  unfold precompute_factorials
  rw [h1, h2]
  simp only [bind, Except.bind]
  rw [h3]
  simp only []
  rw [h4]
  simp only []
  rw [h5]
  simp only []
  rw [wrap64_eq (p - 2) (by omega) (by omega), mod_exp_one _ _ (by omega) (by omega) hp]
  simp only []
  rw [h3]
  simp only []
  rw [h6]
  rfl

theorem precompute_factorials_initial_pos (n p : Int) (hn : 1 ≤ n) (hmax : n + 1 ≤ max_size)
    (hp : 3 ≤ p) (hp64 : p < 2 ^ 63) :
    precompute_factorials Tables.initial n p = Except.ok
      { fact := 1 :: List.replicate n.toNat 0, inv_fact := List.replicate (n.toNat + 1) 0 } := by
  have hn64 : n + 1 < 2 ^ 63 := by
    rw [max_size_eq] at hmax
    omega
  have hw : wrap64 (n + 1) = n + 1 := wrap64_eq _ (by omega) (by omega)
  have hnat : (n + 1).toNat = n.toNat + 1 := by omega
  have h1 : resize [] (n + 1) = Except.ok (List.replicate (n.toNat + 1) 0) := by
    rw [resize_eq _ _ (by omega) hmax, hnat]
    simp
  have h3 : store (List.replicate (n.toNat + 1) 0) 0 1
      = Except.ok (1 :: List.replicate n.toNat 0) := by
    rw [store_eq _ _ _ (le_refl 0) (by rw [List.length_replicate]; omega)]
    rfl
  have h4 : fact_loop (n.toNat + 1) n p 1 (1 :: List.replicate n.toNat 0)
      = Except.ok (1 :: List.replicate n.toNat 0) := by
    obtain ⟨f, hf⟩ := fact_loop_returns n p (by omega) hn64 (n.toNat + 1) 1
      (1 :: List.replicate n.toNat 0) (by norm_num)
      (by simp only [List.length_cons, List.length_replicate]; omega) (by omega)
    rw [hf, fact_loop_fixed n p n.toNat (by omega) _ 1 f (le_refl 1) hf]
  have h5 : load (1 :: List.replicate n.toNat 0) n = Except.ok 0 := by
    rw [load_eq _ _ (by omega) (by simp only [List.length_cons, List.length_replicate]; omega),
      getD_one_cons_replicate _ _ (by omega)]
  have h7 : store (List.replicate (n.toNat + 1) 0) n 0
      = Except.ok (List.replicate (n.toNat + 1) 0) := by
    rw [store_eq _ _ _ (by omega) (by rw [List.length_replicate]; omega),
      List.set_replicate_self]
  have h8 := inv_fact_loop_zeros p (by omega) (n.toNat + 1) (n.toNat + 1) (n - 1) (by omega)
    (by omega) (by omega) (by omega)
  unfold precompute_factorials
  rw [hw]
  show (resize [] (n + 1) >>= fun fact => resize [] (n + 1) >>= fun inv_fact => _) = _
  rw [h1]
  simp only [bind, Except.bind]
  rw [h3]
  simp only []
  rw [h4]
  simp only []
  rw [h5]
  simp only []
  rw [wrap64_eq (p - 2) (by omega) (by omega), mod_exp_zero _ _ (by omega) (by omega) (by omega)]
  simp only []
  rw [h7]
  simp only []
  rw [wrap64_eq (n - 1) (by omega) (by omega), h8]
  rfl

theorem nat_land_pred_eq_zero_iff (n : Nat) (hn : 0 < n) :
    n &&& (n - 1) = 0 ↔ ∃ k : Nat, n = 2 ^ k := by
  induction n using Nat.strong_induction_on with
  | _ n ih =>
    rcases Nat.even_or_odd' n with ⟨m, rfl | rfl⟩
    · have hm : 0 < m := by omega
      have e1 : 2 * m = Nat.bit false m := by simp [Nat.bit_val]
      have e2 : 2 * m - 1 = Nat.bit true (m - 1) := by
        simp only [Nat.bit_val, Bool.toNat_true]
        omega
      rw [e2, e1, Nat.land_bit]
      simp only [Bool.false_and, Nat.bit_val, Bool.toNat_false, add_zero]
      have hih := ih m (by omega) hm
      constructor
      · intro h
        obtain ⟨k, hk⟩ := hih.mp (by omega)
        exact ⟨k + 1, by rw [hk, pow_succ]; ring⟩
      · rintro ⟨k, hk⟩
        cases k with
        | zero =>
          rw [pow_zero] at hk
          omega
        | succ k =>
          rw [pow_succ] at hk
          have hmk : m = 2 ^ k := by omega
          have h0 := hih.mpr ⟨k, hmk⟩
          omega
    · have e1 : 2 * m + 1 = Nat.bit true m := by simp [Nat.bit_val]
      have e2 : 2 * m + 1 - 1 = Nat.bit false m := by
        simp [Nat.bit_val]
      rw [e2, e1, Nat.land_bit]
      simp only [Bool.and_false, Nat.and_self, Nat.bit_val, Bool.toNat_false, Bool.toNat_true,
        add_zero]
      constructor
      · intro h
        exact ⟨0, by omega⟩
      · rintro ⟨k, hk⟩
        cases k with
        | zero =>
          rw [pow_zero] at hk
          omega
        | succ k =>
          rw [pow_succ] at hk
          omega

theorem ispowerof2_aux (x : Int) (h1 : -2 ^ 63 < x) (h2 : x < 2 ^ 63) :
    ispowerof2 x = true ↔ ∃ k : Nat, k ≤ 62 ∧ x = 2 ^ k := by
  unfold ispowerof2
  rw [wrap64_eq (x - 1) (by omega) (by omega)]
  simp only [Bool.and_eq_true, decide_eq_true_eq]
  rcases lt_trichotomy x 0 with hneg | rfl | hpos
  · obtain ⟨m, rfl⟩ := Int.eq_negSucc_of_lt_zero hneg
    have hsub : Int.negSucc m - 1 = Int.negSucc (m + 1) := by
      simp only [Int.negSucc_eq]
      push_cast
      ring
    have hland : Int.land (Int.negSucc m) (Int.negSucc (m + 1)) = Int.negSucc (m ||| (m + 1)) :=
      rfl
    rw [hsub, hland]
    constructor
    · rintro ⟨_, h⟩
      exact absurd h (by simp)
    · rintro ⟨k, _, hk⟩
      have : (0 : Int) < 2 ^ k := by positivity
      omega
  · constructor
    · rintro ⟨h, _⟩
      exact absurd rfl h
    · rintro ⟨k, _, hk⟩
      have : (0 : Int) < 2 ^ k := by positivity
      omega
  · obtain ⟨n, rfl⟩ := Int.eq_ofNat_of_zero_le (le_of_lt hpos)
    have hn : 0 < n := by omega
    have hsub : (n : Int) - 1 = ((n - 1 : Nat) : Int) := by omega
    have hland : Int.land (n : Int) ((n - 1 : Nat) : Int) = ((n &&& (n - 1) : Nat) : Int) := rfl
    rw [hsub, hland]
    constructor
    · rintro ⟨_, h⟩
      obtain ⟨k, hk⟩ := (nat_land_pred_eq_zero_iff n hn).mp (by exact_mod_cast h)
      refine ⟨k, ?_, by rw [hk]; push_cast; rfl⟩
      by_contra hk62
      have : 2 ^ 63 ≤ 2 ^ k := Nat.pow_le_pow_right (by norm_num) (by omega)
      have h2' : n < 2 ^ 63 := by exact_mod_cast h2
      omega
    · rintro ⟨k, _, hk⟩
      have hk' : n = 2 ^ k := by exact_mod_cast hk
      exact ⟨by omega, by exact_mod_cast (nat_land_pred_eq_zero_iff n hn).mpr ⟨k, hk'⟩⟩


theorem two_pow_le_two_pow_62 (k : Nat) (hk : k ≤ 62) : (2 : Int) ^ k ≤ 2 ^ 62 :=
  pow_le_pow_right₀ (by norm_num) hk

theorem nearestPowerOf2_loop_spec (x : Int) (hx : x ≤ 2 ^ 62) :
    ∀ (fuel k : Nat), k ≤ 62 → 63 - k ≤ fuel → (k = 0 ∨ (2 : Int) ^ (k - 1) < x) →
      ∃ j : Nat, j ≤ 62 ∧ nearestPowerOf2_loop fuel x (2 ^ k) = Except.ok (2 ^ j) ∧
        x ≤ 2 ^ j ∧ (j = 0 ∨ (2 : Int) ^ (j - 1) < x) := by
  intro fuel
  induction fuel with
  | zero => intro k hk hfuel _; omega
  | succ fuel ih =>
    intro k hk hfuel hinv
    unfold nearestPowerOf2_loop
    by_cases hlt : (2 : Int) ^ k < x
    · have hk61 : k < 62 := by
        by_contra hcon
        have : k = 62 := by omega
        rw [this] at hlt
        omega
      have hle := two_pow_le_two_pow_62 (k + 1) (by omega)
      have hpos : (0 : Int) < 2 ^ k := by positivity
      have hmul : (2 : Int) ^ k * 2 = 2 ^ (k + 1) := by rw [pow_succ]
      rw [if_pos hlt, hmul, wrap64_eq _ (by omega) (by omega)]
      exact ih (k + 1) (by omega) (by omega) (Or.inr (by simpa using hlt))
    · rw [if_neg hlt]
      exact ⟨k, hk, rfl, by omega, hinv⟩

theorem wrap32_eq (x : Int) (h1 : -2 ^ 31 ≤ x) (h2 : x < 2 ^ 31) : wrap32 x = x := by
  unfold wrap32
  rw [Int.emod_eq_of_lt (by omega) (by omega)]
  omega

theorem isPrime_loop_spec (n : Int) (hn : n < 2147395600) :
    ∀ (fuel : Nat) (i : Int), 2 ≤ i → i ≤ 46340 → (46341 - i).toNat ≤ fuel →
      ∃ r : Bool, isPrime_loop fuel n i = Except.ok r ∧
        (r = true ↔ ∀ d : Int, i ≤ d → d * d ≤ n → ¬ d ∣ n) := by
  intro fuel
  induction fuel with
  | zero => intro i _ _ h; omega
  | succ fuel ih =>
    intro i hi2 hi hfuel
    have hsq0 : 0 ≤ i * i := mul_self_nonneg i
    have hsq1 : i * i ≤ 46340 * 46340 := mul_le_mul hi hi (by omega) (by omega)
    unfold isPrime_loop
    rw [wrap32_eq (i * i) (by omega) (by omega)]
    by_cases hle : i * i ≤ n
    · have hi' : i ≤ 46339 := by
        by_contra hcon
        have h46 : i = 46340 := by omega
        rw [h46] at hle
        omega
      have hn0 : 0 ≤ n := by omega
      rw [if_pos hle, cmod_nonneg n i hn0 (by omega)]
      simp only [bind, Except.bind]
      by_cases hdiv : n % i = 0
      · rw [if_pos hdiv]
        refine ⟨false, rfl, ?_⟩
        constructor
        · intro h
          cases h
        · intro h
          exact absurd (Int.dvd_of_emod_eq_zero hdiv) (h i (le_refl i) hle)
      · rw [if_neg hdiv, wrap32_eq (i + 1) (by omega) (by omega)]
        obtain ⟨r, hr, hiff⟩ := ih (i + 1) (by omega) (by omega) (by omega)
        refine ⟨r, hr, ?_⟩
        rw [hiff]
        constructor
        · intro h d hd hdn
          by_cases hdi : d = i
          · rw [hdi]
            intro hdvd
            exact hdiv (Int.emod_eq_zero_of_dvd hdvd)
          · exact h d (by omega) hdn
        · intro h d hd hdn
          exact h d (by omega) hdn
    · rw [if_neg hle]
      refine ⟨true, rfl, ?_⟩
      constructor
      · intro _ d hd hdn
        have : i * i ≤ d * d := mul_le_mul hd hd (by omega) (by omega)
        omega
      · intro _
        rfl

theorem trial_division_iff (n : Int) (hn : 2 ≤ n) :
    (∀ d : Int, 2 ≤ d → d * d ≤ n → ¬ d ∣ n) ↔ Nat.Prime n.toNat := by
  obtain ⟨m, rfl⟩ := Int.eq_ofNat_of_zero_le (by omega : 0 ≤ n)
  rw [Int.toNat_natCast, Nat.prime_def_le_sqrt]
  constructor
  · intro h
    refine ⟨by omega, ?_⟩
    intro k hk hks hdvd
    rw [Nat.le_sqrt] at hks
    exact h (k : Int) (by omega) (by exact_mod_cast hks) (Int.natCast_dvd_natCast.mpr hdvd)
  · rintro ⟨_, h⟩ d hd hdn hdvd
    obtain ⟨k, rfl⟩ := Int.eq_ofNat_of_zero_le (by omega : 0 ≤ d)
    have hks : k ≤ Nat.sqrt m := by
      rw [Nat.le_sqrt]
      exact_mod_cast hdn
    exact h k (by omega) hks (Int.natCast_dvd_natCast.mp hdvd)

theorem toint_loop_append (num : Int) (xs : List Char) (c : Char) :
    toint_loop num (xs ++ [c])
      = wrap64 (wrap64 (toint_loop num xs * 2) + ((c.toNat : Int) - 48)) := by
  induction xs generalizing num with
  | nil => rfl
  | cons x xs ih =>
    simp only [List.cons_append, toint_loop]
    exact ih _

theorem tobin_loop_spec :
    ∀ (fuel : Nat) (a : Int) (s : List Char), 0 ≤ a → bitlength a.toNat < fuel →
      ∃ L : List Char, tobin_loop fuel a s = Except.ok (s ++ L) ∧
        (∀ c ∈ L, c = '0' ∨ c = '1') ∧
        (a = 0 → L = []) ∧
        (0 < a → L.getLast? = some '1') ∧
        (a < 2 ^ 63 → toint_loop 0 L.reverse = a) := by
  intro fuel
  induction fuel with
  | zero => intro a s _ h; omega
  | succ fuel ih =>
    intro a s ha hfuel
    unfold tobin_loop
    by_cases hpos : a > 0
    · rw [if_pos hpos, shiftRight_one]
      have hhalf : (a / 2).toNat = a.toNat / 2 := by omega
      have hbl := bitlength_half a.toNat (by omega)
      obtain ⟨L, hL, hchars, hzero, hlast, hval⟩ := ih (a / 2)
        (s ++ [if Int.tmod a 2 = 1 then '1' else '0']) (by omega) (by rw [hhalf]; omega)
      have htmod : Int.tmod a 2 = a % 2 := Int.tmod_eq_emod ha (by norm_num)
      refine ⟨(if Int.tmod a 2 = 1 then '1' else '0') :: L, ?_, ?_, ?_, ?_, ?_⟩
      · rw [hL, List.append_assoc, List.singleton_append]
      · intro c hc
        rcases List.mem_cons.mp hc with h | h
        · rw [h]
          split
          · exact Or.inr rfl
          · exact Or.inl rfl
        · exact hchars c h
      · intro h0
        omega
      · intro _
        by_cases hh : a / 2 = 0
        · have h1 : a = 1 := by omega
          rw [hzero hh, h1]
          rfl
        · have hl := hlast (by omega)
          cases L with
          | nil => simp at hl
          | cons y ys => rw [List.getLast?_cons_cons]; exact hl
      · intro h63
        rw [List.reverse_cons, toint_loop_append, hval (by omega)]
        have hdig : (((if Int.tmod a 2 = 1 then '1' else '0' : Char).toNat : Int) - 48)
            = a % 2 := by
          rw [htmod]
          by_cases hodd : a % 2 = 1
          · rw [if_pos hodd, hodd]
            rfl
          · rw [if_neg hodd]
            have : a % 2 = 0 := by omega
            rw [this]
            rfl
        rw [hdig, wrap64_eq (a / 2 * 2) (by omega) (by omega), wrap64_eq _ (by omega) (by omega)]
        omega
    · rw [if_neg hpos]
      have h0 : a = 0 := by omega
      refine ⟨[], by rw [List.append_nil], ?_, fun _ => rfl, ?_, ?_⟩
      · intro c hc
        cases hc
      · intro h
        omega
      · intro _
        rw [h0]
        rfl

theorem power_loop_eq_mod_exp_loop (mod : Int) (hm : mod ≠ 0) :
    ∀ (fuel : Nat) (s : ModExpState),
      power_loop fuel mod s.result s.a s.b
        = (mod_exp_loop fuel mod s >>= fun s' => pure s'.result) := by
  intro fuel
  induction fuel with
  | zero => intro s; rfl
  | succ fuel ih =>
    intro s
    unfold power_loop mod_exp_loop mod_exp_body
    by_cases hz : s.b = 0
    · rw [if_pos hz, if_pos hz]
      rfl
    · rw [if_neg hz, if_neg hz]
      simp only [if_pos hm]
      by_cases ho : Int.land s.b 1 ≠ 0
      · rw [if_pos ho, if_pos ho]
        simp only [bind, Except.bind, pure, Except.pure]
        cases cmod (wrap64 (s.result * s.a)) mod with
        | error e => rfl
        | ok r =>
          simp only []
          cases cmod (wrap64 (s.a * s.a)) mod with
          | error e => rfl
          | ok a' =>
            simp only []
            exact ih { result := r, a := a', b := s.b >>> (1 : Nat),
                       iterations := s.iterations + 1,
                       multiplications := s.multiplications + 2 }
      · rw [if_neg ho, if_neg ho]
        simp only [bind, Except.bind, pure, Except.pure]
        cases cmod (wrap64 (s.a * s.a)) mod with
        | error e => rfl
        | ok a' =>
          simp only []
          exact ih { result := s.result, a := a', b := s.b >>> (1 : Nat),
                     iterations := s.iterations + 1,
                     multiplications := s.multiplications + 1 }

theorem power_eq_mod_exp_of_cmod (a a' b mod : Int) (hm : mod ≠ 0)
    (ha : cmod a mod = Except.ok a') : power a b mod = mod_exp a' b mod := by
  unfold power mod_exp mod_exp_fuel
  rw [if_pos hm, ha]
  exact power_loop_eq_mod_exp_loop mod hm 64
    { result := 1, a := a', b := b, iterations := 0, multiplications := 0 }

theorem mod_exp_eq_pow_emod (base exponent modulus : Int) (hb : 0 ≤ base)
    (hbb : base * base < 2 ^ 63) (he : 0 < exponent) (he64 : exponent < 2 ^ 63)
    (hm : 0 < modulus) (hmm : (modulus - 1) * (modulus - 1) < 2 ^ 63) :
    mod_exp base exponent modulus = Except.ok (base ^ exponent.toNat % modulus) := by
  have hB : (max (max base (modulus - 1)) 1) * (max (max base (modulus - 1)) 1) < 2 ^ 63 := by
    rcases max_cases (max base (modulus - 1)) 1 with ⟨h1, _⟩ | ⟨h1, _⟩
    · rw [h1]
      rcases max_cases base (modulus - 1) with ⟨h2, _⟩ | ⟨h2, _⟩ <;> rw [h2] <;> assumption
    · rw [h1]; norm_num
  have hclos : ∀ z : Int, 0 ≤ z → z ≤ (max (max base (modulus - 1)) 1) *
      (max (max base (modulus - 1)) 1) → z % modulus ≤ max (max base (modulus - 1)) 1 := by
    intro z _ _
    have h1 : z % modulus < modulus := Int.emod_lt_of_pos _ hm
    have h2 : modulus - 1 ≤ max (max base (modulus - 1)) 1 :=
      le_trans (le_max_right _ _) (le_max_left _ _)
    omega
  obtain ⟨s', hs', hres⟩ := mod_exp_loop_value modulus _ hm hB hclos 64
    { result := 1, a := base, b := exponent, iterations := 0, multiplications := 0 }
    (le_of_lt he) (bitlength_toNat_lt_64 _ he64) (by norm_num) (le_max_right _ _) hb
    (le_trans (le_max_left _ _) (le_max_left _ _))
  rw [mod_exp_eq_of_loop _ _ _ _ hs', hres]
  simp only
  rw [if_neg (by omega), one_mul]

theorem mod_exp_zero_exponent (a mod : Int) : mod_exp a 0 mod = Except.ok 1 := rfl

theorem wrap64_modEq (x : Int) : wrap64 x ≡ x [ZMOD 2 ^ 64] := by
  unfold wrap64
  have h := Int.mod_modEq (x + 2 ^ 63) (2 ^ 64)
  have h2 := h.sub_right (2 ^ 63)
  rwa [add_sub_cancel_right] at h2

theorem wrap64_congr (x y : Int) (h : x ≡ y [ZMOD 2 ^ 64]) : wrap64 x = wrap64 y := by
  unfold wrap64
  have h2 : (x + 2 ^ 63) % 2 ^ 64 = (y + 2 ^ 63) % 2 ^ 64 := h.add_right (2 ^ 63)
  rw [h2]

theorem power_loop_zero_mod :
    ∀ (fuel : Nat) (r a b : Int), 0 ≤ b → bitlength b.toNat < fuel →
      power_loop fuel 0 r a b
        = Except.ok (if b = 0 then r else wrap64 (r * a ^ b.toNat)) := by
  intro fuel
  induction fuel with
  | zero => intro r a b _ h; omega
  | succ fuel ih =>
    intro r a b hb hfuel
    unfold power_loop
    by_cases hz : b = 0
    · rw [if_pos hz, if_pos hz]
    · rw [if_neg hz, if_neg hz, shiftRight_one]
      simp only [if_neg (by simp : ¬ ((0 : Int) ≠ 0))]
      have hhalf : (b / 2).toNat = b.toNat / 2 := by omega
      have hbl := bitlength_half b.toNat (by omega)
      have hodd := land_one_ne_zero_iff b hb
      have hsq : ∀ k : Nat, (wrap64 (a * a)) ^ k ≡ a ^ (2 * k) [ZMOD 2 ^ 64] := by
        intro k
        have h := (wrap64_modEq (a * a)).pow k
        have e : (a * a) ^ k = a ^ (2 * k) := by rw [pow_mul, pow_two]
        rw [e] at h
        exact h
      by_cases ho : Int.land b 1 ≠ 0
      · have hb1 : b % 2 = 1 := hodd.mp ho
        rw [if_pos ho]
        simp only [bind, Except.bind, pure, Except.pure]
        rw [ih _ _ _ (by omega) (by rw [hhalf]; omega)]
        congr 1
        by_cases hh : b / 2 = 0
        · have h1 : b.toNat = 1 := by omega
          rw [if_pos hh, h1, pow_one]
        · rw [if_neg hh, hhalf]
          apply wrap64_congr
          have hk : b.toNat = 2 * (b.toNat / 2) + 1 := by omega
          have h := (wrap64_modEq (r * a)).mul (hsq (b.toNat / 2))
          have e : r * a * a ^ (2 * (b.toNat / 2)) = r * a ^ b.toNat := by
            conv_rhs => rw [hk]
            rw [pow_succ]
            ring
          rw [e] at h
          exact h
      · have hb0 : b % 2 = 0 := by
          have := mt hodd.mpr ho
          omega
        have hh : b / 2 ≠ 0 := by omega
        rw [if_neg ho]
        simp only [bind, Except.bind, pure, Except.pure]
        rw [ih _ _ _ (by omega) (by rw [hhalf]; omega), if_neg hh, hhalf]
        congr 1
        apply wrap64_congr
        have hk : b.toNat = 2 * (b.toNat / 2) := by omega
        have h := (Int.ModEq.refl r).mul (hsq (b.toNat / 2))
        rw [← hk] at h
        exact h

theorem shift_loop_spec :
    ∀ (a : List Int) (i0 : Nat), (i0 : Int) + a.length < 2 ^ 31 →
      (∀ k : Nat, k < a.length →
        -2 ^ 31 ≤ a.getD k 0 - ((i0 : Int) + k) ∧ a.getD k 0 - ((i0 : Int) + k) < 2 ^ 31) →
      (shift_loop (i0 : Int) a).length = a.length ∧
      ∀ k : Nat, k < a.length →
        (shift_loop (i0 : Int) a).getD k 0 = a.getD k 0 - ((i0 : Int) + k) := by
  intro a
  induction a with
  | nil =>
    intro i0 _ _
    exact ⟨rfl, fun k hk => absurd hk (by simp)⟩
  | cons x xs ih =>
    intro i0 hlen hrange
    simp only [List.length_cons] at hlen hrange
    push_cast at hlen
    have h0 := hrange 0 (by omega)
    simp only [List.getD_cons_zero, Nat.cast_zero, add_zero] at h0
    have hw : wrap32 ((i0 : Int) + 1) = ((i0 + 1 : Nat) : Int) := by
      rw [wrap32_eq _ (by omega) (by omega)]
      push_cast
      rfl
    obtain ⟨hl, hv⟩ := ih (i0 + 1) (by push_cast; omega) (by
      intro k hk
      have := hrange (k + 1) (by omega)
      simp only [List.getD_cons_succ] at this
      push_cast at this ⊢
      constructor <;> omega)
    unfold shift_loop
    rw [wrap32_eq _ h0.1 h0.2, hw]
    refine ⟨by simp only [List.length_cons, hl], ?_⟩
    intro k hk
    cases k with
    | zero => simp only [List.getD_cons_zero, Nat.cast_zero, add_zero]
    | succ k =>
      simp only [List.length_cons] at hk
      rw [List.getD_cons_succ, List.getD_cons_succ, hv k (by omega)]
      push_cast
      ring

theorem scan_loop_spec :
    ∀ (s : List Int) (i0 : Nat), (i0 : Int) + s.length < 2 ^ 31 →
      (∀ i : Nat, i < s.length → s.getD i 0 ≤ 0 → (∀ k : Nat, k < i → 0 < s.getD k 0) →
        scan_loop (i0 : Int) s = some ((i0 : Int) + i)) ∧
      ((∀ k : Nat, k < s.length → 0 < s.getD k 0) → scan_loop (i0 : Int) s = none) := by
  intro s
  induction s with
  | nil =>
    intro i0 _
    exact ⟨fun i hi => absurd hi (by simp), fun _ => rfl⟩
  | cons x xs ih =>
    intro i0 hlen
    simp only [List.length_cons] at hlen
    push_cast at hlen
    have hw : wrap32 ((i0 : Int) + 1) = ((i0 + 1 : Nat) : Int) := by
      rw [wrap32_eq _ (by omega) (by omega)]
      push_cast
      rfl
    obtain ⟨ih1, ih2⟩ := ih (i0 + 1) (by push_cast; omega)
    constructor
    · intro i hi hle hbefore
      unfold scan_loop
      cases i with
      | zero =>
        simp only [List.getD_cons_zero] at hle
        rw [if_pos hle]
        simp
      | succ i =>
        have hx := hbefore 0 (by omega)
        simp only [List.getD_cons_zero] at hx
        simp only [List.length_cons] at hi
        rw [if_neg (by omega), hw, ih1 i (by omega) (by simpa using hle) (by
          intro k hk
          have := hbefore (k + 1) (by omega)
          simpa using this)]
        apply congrArg some
        push_cast
        ring
    · intro hall
      unfold scan_loop
      have hx := hall 0 (by simp)
      simp only [List.getD_cons_zero] at hx
      rw [if_neg (by omega), hw]
      apply ih2
      intro k hk
      have := hall (k + 1) (by simp only [List.length_cons]; omega)
      simpa using this

theorem min_element_loop_spec :
    ∀ (xs p : List Int) (m : Int) (j : Nat), j < p.length → p.getD j 0 = m →
      (∀ k : Nat, k < p.length → m ≤ p.getD k 0) → (∀ k : Nat, k < j → m < p.getD k 0) →
      min_element_loop xs p.length m j < (p ++ xs).length ∧
      (∀ k : Nat, k < (p ++ xs).length →
        (p ++ xs).getD (min_element_loop xs p.length m j) 0 ≤ (p ++ xs).getD k 0) ∧
      (∀ k : Nat, k < min_element_loop xs p.length m j →
        (p ++ xs).getD (min_element_loop xs p.length m j) 0 < (p ++ xs).getD k 0) := by
  intro xs
  induction xs with
  | nil =>
    intro p m j hj hpj hmin hfirst
    simp only [min_element_loop, List.append_nil]
    rw [hpj]
    exact ⟨hj, hmin, hfirst⟩
  | cons x xs ih =>
    intro p m j hj hpj hmin hfirst
    have happ : p ++ x :: xs = (p ++ [x]) ++ xs := by simp
    have hlen : (p ++ [x]).length = p.length + 1 := by simp
    have hold : ∀ k : Nat, k < p.length → (p ++ [x]).getD k 0 = p.getD k 0 :=
      fun k hk => List.getD_append _ _ _ _ hk
    have hnew : (p ++ [x]).getD p.length 0 = x := by
      rw [List.getD_append_right _ _ _ _ (le_refl _), Nat.sub_self, List.getD_cons_zero]
    unfold min_element_loop
    rw [happ, ← hlen]
    by_cases hlt : x < m
    · rw [if_pos hlt]
      refine ih (p ++ [x]) x p.length (by omega) hnew ?_ ?_
      · intro k hk
        by_cases hkp : k < p.length
        · rw [hold k hkp]
          have := hmin k hkp
          omega
        · have : k = p.length := by omega
          rw [this, hnew]
      · intro k hk
        rw [hold k hk]
        have := hmin k hk
        omega
    · rw [if_neg hlt]
      refine ih (p ++ [x]) m j (by omega) (by rw [hold j hj]; exact hpj) ?_ ?_
      · intro k hk
        by_cases hkp : k < p.length
        · rw [hold k hkp]
          exact hmin k hkp
        · have : k = p.length := by omega
          rw [this, hnew]
          omega
      · intro k hk
        rw [hold k (by omega)]
        exact hfirst k hk

theorem min_element_spec (s : List Int) (hs : s ≠ []) :
    min_element s < s.length ∧
    (∀ k : Nat, k < s.length → s.getD (min_element s) 0 ≤ s.getD k 0) ∧
    (∀ k : Nat, k < min_element s → s.getD (min_element s) 0 < s.getD k 0) := by
  cases s with
  | nil => exact absurd rfl hs
  | cons x xs =>
    exact min_element_loop_spec xs [x] x 0 (by simp) rfl
      (by
        intro k hk
        have : k = 0 := by simpa using hk
        rw [this]
        exact le_refl _)
      (fun k hk => absurd hk (by omega))

theorem getD_set_self (v : List Int) (k : Nat) (x : Int) (hk : k < v.length) :
    (v.set k x).getD k 0 = x := by
  rw [List.getD_eq_getElem?_getD, List.getElem?_set_self hk]
  rfl

theorem getD_set_ne (v : List Int) (k j : Nat) (x : Int) (hkj : k ≠ j) :
    (v.set k x).getD j 0 = v.getD j 0 := by
  rw [List.getD_eq_getElem?_getD, List.getD_eq_getElem?_getD, List.getElem?_set_ne hkj]

theorem fact_loop_last (n mod : Int) (hm : 0 < mod) (hn : n + 1 < 2 ^ 63) :
    ∀ (fuel : Nat) (i : Int) (L : List Int), 1 ≤ i → i ≤ n → n < L.length →
      (n + 1 - i).toNat < fuel →
      ∃ L', fact_loop fuel n mod i L = Except.ok L' ∧
        L'.getD n.toNat 0 = Int.tmod (wrap64 (L.getD n.toNat 0 * n)) mod := by
  intro fuel
  induction fuel with
  | zero => intro i L _ _ _ h; omega
  | succ fuel ih =>
    intro i L hi hin hlen hfuel
    unfold fact_loop
    rw [if_pos hin, load_eq _ _ (by omega) (by omega)]
    simp only [bind, Except.bind, cmod_pos _ _ hm]
    rw [store_eq _ _ _ (by omega) (by omega)]
    simp only []
    rw [wrap64_eq (i + 1) (by omega) (by omega)]
    by_cases heq : i = n
    · cases fuel with
      | zero => omega
      | succ fuel =>
        unfold fact_loop
        rw [if_neg (by omega)]
        refine ⟨_, rfl, ?_⟩
        rw [heq, getD_set_self _ _ _ (by omega)]
    · obtain ⟨L', hL', hval⟩ := ih (i + 1)
        (L.set i.toNat (Int.tmod (wrap64 (L.getD i.toNat 0 * i)) mod)) (by omega) (by omega)
        (by simp only [List.length_set]; omega) (by omega)
      refine ⟨L', hL', ?_⟩
      rw [hval, getD_set_ne _ _ _ _ (by omega)]

theorem inv_fact_loop_spec (p : Int) (hp0 : 0 < p) (hp31 : p ≤ 2 ^ 31) :
    ∀ (fuel : Nat) (i : Int) (M : List Int), -1 ≤ i → i + 1 < M.length →
      (M.length : Int) ≤ p →
      (∀ k : Nat, i < (k : Int) → k < M.length → 0 ≤ M.getD k 0 ∧ M.getD k 0 < p) →
      (i + 1).toNat < fuel →
      ∃ M', inv_fact_loop fuel p i M = Except.ok M' ∧ M'.length = M.length ∧
        (∀ k : Nat, i < (k : Int) → M'.getD k 0 = M.getD k 0) ∧
        (∀ k : Nat, (k : Int) ≤ i →
          M'.getD k 0 = M'.getD (k + 1) 0 * ((k : Int) + 1) % p) := by
  intro fuel
  induction fuel with
  | zero => intro i M _ _ _ _ h; omega
  | succ fuel ih =>
    intro i M hi hlen hlp hrange hfuel
    unfold inv_fact_loop
    by_cases hin : 0 ≤ i
    · have hx := hrange (i + 1).toNat (by omega) (by omega)
      have hprod0 : 0 ≤ M.getD (i + 1).toNat 0 * (i + 1) := mul_nonneg hx.1 (by omega)
      have hprod1 : M.getD (i + 1).toNat 0 * (i + 1) < 2 ^ 63 := by nlinarith
      rw [if_pos hin, wrap64_eq (i + 1) (by omega) (by omega), load_eq _ _ (by omega) hlen]
      simp only [bind, Except.bind]
      rw [wrap64_eq _ (by omega) hprod1, cmod_nonneg _ _ hprod0 hp0]
      simp only []
      rw [store_eq _ _ _ hin (by omega)]
      simp only []
      rw [wrap64_eq (i - 1) (by omega) (by omega)]
      have hy0 : 0 ≤ M.getD (i + 1).toNat 0 * (i + 1) % p := Int.emod_nonneg _ (by omega)
      have hy1 : M.getD (i + 1).toNat 0 * (i + 1) % p < p := Int.emod_lt_of_pos _ hp0
      obtain ⟨M', hM', hl', hkeep, hrel⟩ := ih (i - 1)
        (M.set i.toNat (M.getD (i + 1).toNat 0 * (i + 1) % p)) (by omega)
        (by simp only [List.length_set]; omega) (by simp only [List.length_set]; exact hlp)
        (by
          intro k hk hkl
          simp only [List.length_set] at hkl
          by_cases hki : k = i.toNat
          · rw [hki, getD_set_self _ _ _ (by omega)]
            exact ⟨hy0, hy1⟩
          · rw [getD_set_ne _ _ _ _ (fun h => hki h.symm)]
            exact hrange k (by omega) hkl)
        (by omega)
      refine ⟨M', hM', by rw [hl', List.length_set], ?_, ?_⟩
      · intro k hk
        rw [hkeep k (by omega), getD_set_ne _ _ _ _ (by omega)]
      · intro k hk
        by_cases hki : (k : Int) = i
        · have hkn : k = i.toNat := by omega
          rw [hkeep k (by omega), hkeep (k + 1) (by omega), hkn,
            getD_set_self _ _ _ (by omega), getD_set_ne _ _ _ _ (by omega)]
          have e1 : i.toNat + 1 = (i + 1).toNat := by omega
          have e2 : ((i.toNat : Nat) : Int) + 1 = i + 1 := by omega
          rw [e1, e2]
        · exact hrel k (by omega)
    · rw [if_neg hin]
      refine ⟨M, rfl, rfl, fun _ _ => rfl, ?_⟩
      intro k hk
      omega

theorem resize_entries (v v' : List Int) (k p : Int) (hp : 0 < p)
    (hv : ∀ x ∈ v, 0 ≤ x ∧ x < p) (h : resize v k = Except.ok v') :
    ∀ j : Nat, 0 ≤ v'.getD j 0 ∧ v'.getD j 0 < p := by
  unfold resize at h
  split at h
  · cases h
  · cases h
    intro j
    rw [List.getD_eq_getElem?_getD, List.getElem?_append]
    split
    · rw [List.getElem?_take]
      split
      · cases hj : v[j]? with
        | none => exact ⟨le_refl 0, hp⟩
        | some x => exact hv x (List.getElem?_mem hj)
      · exact ⟨le_refl 0, hp⟩
    · rw [List.getElem?_replicate]
      split <;> exact ⟨le_refl 0, hp⟩

theorem precompute_factorials_residues (T : Tables) (n p : Int) (h0 : 0 ≤ n)
    (hmax : n + 1 ≤ max_size) (hp2 : 2 ≤ p) (hnp : n < p) (hp31 : p ≤ 2 ^ 31)
    (hT : ∀ x ∈ T.fact, 0 ≤ x ∧ x < p) :
    ∃ T', precompute_factorials T n p = Except.ok T' ∧
      (T'.fact.length : Int) = n + 1 ∧ (T'.inv_fact.length : Int) = n + 1 ∧
      T'.inv_fact.getD n.toNat 0 = T'.fact.getD n.toNat 0 ^ (p - 2).toNat % p ∧
      ∀ i : Nat, (i : Int) < n →
        T'.inv_fact.getD i 0 = T'.inv_fact.getD (i + 1) 0 * ((i : Int) + 1) % p := by
  have hn : n + 1 < 2 ^ 63 := by
    rw [max_size_eq] at hmax
    omega
  have hw : wrap64 (n + 1) = n + 1 := wrap64_eq _ (by omega) (by omega)
  obtain ⟨fact0, hfact0⟩ : ∃ v, resize T.fact (n + 1) = Except.ok v :=
    ⟨_, resize_eq _ _ (by omega) hmax⟩
  obtain ⟨inv0, hinv0⟩ : ∃ v, resize T.inv_fact (n + 1) = Except.ok v :=
    ⟨_, resize_eq _ _ (by omega) hmax⟩
  have hl0 := resize_length _ _ _ hfact0
  have hli0 := resize_length _ _ _ hinv0
  have hent := resize_entries _ _ _ p (by omega) hT hfact0
  obtain ⟨fact1, hfact1⟩ : ∃ v, store fact0 0 1 = Except.ok v :=
    ⟨_, store_eq _ _ _ (le_refl 0) (by omega)⟩
  have hl1 := store_length _ _ _ _ hfact1
  have hf1 := (store_ok _ _ _ _ hfact1).2.2
  rw [Int.toNat_zero] at hf1
  have hfl : ∃ fact2, fact_loop (n.toNat + 1) n p 1 fact1 = Except.ok fact2 ∧
      fact2.length = fact1.length ∧
      0 ≤ fact2.getD n.toNat 0 ∧ fact2.getD n.toNat 0 < p := by
    by_cases hn0 : n = 0
    · subst hn0
      refine ⟨fact1, by simp [fact_loop], rfl, ?_⟩
      rw [hf1, Int.toNat_zero, getD_set_self _ _ _ (by omega)]
      constructor <;> omega
    · obtain ⟨fact2, hfact2, hval⟩ := fact_loop_last n p (by omega) hn (n.toNat + 1) 1 fact1
        (le_refl 1) (by omega) (by omega) (by omega)
      have hx := hent n.toNat
      have hx1 : fact1.getD n.toNat 0 = fact0.getD n.toNat 0 := by
        rw [hf1, getD_set_ne _ _ _ _ (by omega)]
      rw [hx1] at hval
      have hprod0 : 0 ≤ fact0.getD n.toNat 0 * n := mul_nonneg hx.1 h0
      have hprod1 : fact0.getD n.toNat 0 * n < 2 ^ 63 := by nlinarith
      rw [wrap64_eq _ (by omega) hprod1, Int.tmod_eq_emod hprod0 (by omega)] at hval
      refine ⟨fact2, hfact2, fact_loop_length _ _ _ _ _ _ hfact2, ?_⟩
      rw [hval]
      exact ⟨Int.emod_nonneg _ (by omega), Int.emod_lt_of_pos _ (by omega)⟩
  obtain ⟨fact2, hfact2, hl2, hF0, hF1⟩ := hfl
  have hy : mod_exp (fact2.getD n.toNat 0) (p - 2) p
      = Except.ok (fact2.getD n.toNat 0 ^ (p - 2).toNat % p) := by
    by_cases hp : p = 2
    · subst hp
      have e : ((2 : Int) - 2) = 0 := by norm_num
      rw [e, mod_exp_zero_exponent]
      simp only [Int.toNat_zero, pow_zero]
      rfl
    · exact mod_exp_eq_pow_emod _ _ _ hF0 (by nlinarith) (by omega) (by omega) (by omega)
        (by nlinarith)
  have hy0 : 0 ≤ fact2.getD n.toNat 0 ^ (p - 2).toNat % p := Int.emod_nonneg _ (by omega)
  have hy1 : fact2.getD n.toNat 0 ^ (p - 2).toNat % p < p := Int.emod_lt_of_pos _ (by omega)
  obtain ⟨inv1, hinv1⟩ : ∃ v, store inv0 n (fact2.getD n.toNat 0 ^ (p - 2).toNat % p)
      = Except.ok v := ⟨_, store_eq _ _ _ h0 (by omega)⟩
  have hli1 := store_length _ _ _ _ hinv1
  have hi1 := (store_ok _ _ _ _ hinv1).2.2
  obtain ⟨inv2, hinv2, hli2, hkeep, hrel⟩ := inv_fact_loop_spec p (by omega) hp31
    (n.toNat + 1) (n - 1) inv1 (by omega) (by omega) (by omega)
    (by
      intro k hk hkl
      have hkn : k = n.toNat := by omega
      rw [hkn, hi1, getD_set_self _ _ _ (by omega)]
      exact ⟨hy0, hy1⟩)
    (by omega)
  refine ⟨{ fact := fact2, inv_fact := inv2 }, ?_, by simp only; omega, by simp only; omega,
    ?_, ?_⟩
  · unfold precompute_factorials
    rw [hw, hfact0, hinv0]
    simp only [bind, Except.bind]
    rw [hfact1]
    simp only []
    rw [hfact2]
    simp only []
    rw [load_eq _ _ h0 (by omega)]
    simp only []
    rw [wrap64_eq (p - 2) (by omega) (by omega), hy]
    simp only []
    rw [hinv1]
    simp only []
    rw [wrap64_eq (n - 1) (by omega) (by omega), hinv2]
    rfl
  · simp only
    rw [hkeep n.toNat (by omega), hi1, getD_set_self _ _ _ (by omega)]
  · intro i hi
    exact hrel i (by omega)

theorem precompute_factorials_within_max_size (T T' : Tables) (n mod : Int) (h0 : 0 ≤ n)
    (hn : n < 2 ^ 63) (h : precompute_factorials T n mod = Except.ok T') :
    n + 1 ≤ max_size := by
  unfold precompute_factorials at h
  simp only [bind_eq_ok] at h
  obtain ⟨fact0, hfact0, _⟩ := h
  have hr := resize_range _ _ _ hfact0
  by_cases hlt : n + 1 < 2 ^ 63
  · rw [wrap64_eq _ (by omega) hlt] at hr
    exact hr.2
  · have hn1 : n + 1 = 2 ^ 63 := by omega
    have hneg : wrap64 (n + 1) = -2 ^ 63 := by
      rw [hn1]
      decide
    omega

theorem precompute_factorials_length_error (T : Tables) (n mod : Int) (h0 : 0 ≤ n)
    (hn : n < 2 ^ 63) (hmax : max_size < n + 1) :
    precompute_factorials T n mod = Except.error Err.lengthError := by
  have hbad : wrap64 (n + 1) < 0 ∨ max_size < wrap64 (n + 1) := by
    by_cases hlt : n + 1 < 2 ^ 63
    · rw [wrap64_eq _ (by omega) hlt]
      exact Or.inr hmax
    · have hn1 : n + 1 = 2 ^ 63 := by omega
      have hneg : wrap64 (n + 1) = -2 ^ 63 := by
        rw [hn1]
        decide
      exact Or.inl (by omega)
  unfold precompute_factorials
  simp only [resize, if_pos hbad, bind, Except.bind]

/-! ## The claims -/

/-- C1 (the code at the failing input). From the empty tables,
`precompute_factorials(5, 1000000007)` leaves `fact = [1,0,0,0,0,0]`, not the
factorials `[1,1,2,6,24,120]`: line 36 multiplies the fresh zero `fact[i]`, not
`fact[i-1]`, by `i`. -/
theorem precompute_factorials_fact_at_5 :
    ∃ T', precompute_factorials Tables.initial 5 1000000007 = Except.ok T' ∧
      T'.fact = [1, 0, 0, 0, 0, 0] ∧ T'.fact ≠ [1, 1, 2, 6, 24, 120] :=
  ⟨{ fact := [1, 0, 0, 0, 0, 0], inv_fact := [0, 0, 0, 0, 0, 0] }, by decide, rfl, by decide⟩

/-- C2 (the code at the failing input). After `precompute_factorials(5, 1000000007)`
on the empty tables, `ncr(5, 2, 1000000007)` returns `0`, not `C(5,2) = 10`. -/
theorem ncr_after_precompute_at_5_2 :
    ∃ T', precompute_factorials Tables.initial 5 1000000007 = Except.ok T' ∧
      ncr T' 5 2 1000000007 = Except.ok 0 :=
  ⟨{ fact := [1, 0, 0, 0, 0, 0], inv_fact := [0, 0, 0, 0, 0, 0] }, by decide, by decide⟩

/-- C3 (amended). For a base with `0 ≤ base` and `base² < 2^63`, an exponent with
`0 ≤ exponent < 2^63` and a modulus with `0 < modulus` and `(modulus - 1)² < 2^63`,
excluding the pair `modulus = 1`, `exponent = 0`, the call
`mod_exp(base, exponent, modulus)` returns `base ^ exponent mod modulus`. -/
theorem mod_exp_correct (base exponent modulus : Int) (hb : 0 ≤ base)
    (hbb : base * base < 2 ^ 63) (he : 0 ≤ exponent) (he64 : exponent < 2 ^ 63)
    (hm : 0 < modulus) (hmm : (modulus - 1) * (modulus - 1) < 2 ^ 63)
    (hne : 1 < modulus ∨ 0 < exponent) :
    mod_exp base exponent modulus = Except.ok (base ^ exponent.toNat % modulus) := by
  have hB : (max (max base (modulus - 1)) 1) * (max (max base (modulus - 1)) 1) < 2 ^ 63 := by
    rcases max_cases (max base (modulus - 1)) 1 with ⟨h1, _⟩ | ⟨h1, _⟩
    · rw [h1]
      rcases max_cases base (modulus - 1) with ⟨h2, _⟩ | ⟨h2, _⟩ <;> rw [h2] <;> assumption
    · rw [h1]; norm_num
  have hclos : ∀ z : Int, 0 ≤ z → z ≤ (max (max base (modulus - 1)) 1) *
      (max (max base (modulus - 1)) 1) → z % modulus ≤ max (max base (modulus - 1)) 1 := by
    intro z _ _
    have h1 : z % modulus < modulus := Int.emod_lt_of_pos _ hm
    have h2 : modulus - 1 ≤ max (max base (modulus - 1)) 1 :=
      le_trans (le_max_right _ _) (le_max_left _ _)
    omega
  obtain ⟨s', hs', hres⟩ := mod_exp_loop_value modulus _ hm hB hclos 64
    { result := 1, a := base, b := exponent, iterations := 0, multiplications := 0 }
    he (bitlength_toNat_lt_64 _ he64) (by norm_num) (le_max_right _ _) hb
    (le_trans (le_max_left _ _) (le_max_left _ _))
  rw [mod_exp_eq_of_loop _ _ _ _ hs', hres]
  simp only
  by_cases h0 : exponent = 0
  · have h1 : 1 < modulus := by omega
    rw [if_pos h0, h0]
    simp only [Int.toNat_zero, pow_zero]
    rw [Int.emod_eq_of_lt (by norm_num) h1]
  · rw [if_neg h0, one_mul]

/-- Witness for C3 (amended): the two calls quoted by the specification,
`mod_exp(2, 10, 1000000007) = 1024` and `mod_exp(3, 0, 1000000007) = 1`. -/
theorem mod_exp_correct_witness :
    mod_exp 2 10 1000000007 = Except.ok 1024 ∧ mod_exp 3 0 1000000007 = Except.ok 1 :=
  ⟨mod_exp_correct 2 10 1000000007 (by decide) (by decide) (by decide) (by decide) (by decide)
      (by decide) (by decide),
   mod_exp_correct 3 0 1000000007 (by decide) (by decide) (by decide) (by decide) (by decide)
      (by decide) (by decide)⟩

/-- C3 (counterexample). With base `2^32` the square `a * a` overflows 64 bits:
`mod_exp(4294967296, 2, 1000000007)` returns `0`, not `2^64 mod 1000000007`
(which is `582344008`); and `mod_exp(3, 0, 1)` returns `1`, not `3^0 mod 1 = 0`. -/
theorem mod_exp_counterexample :
    (mod_exp 4294967296 2 1000000007 = Except.ok 0 ∧
      mod_exp 4294967296 2 1000000007
        ≠ Except.ok ((4294967296 : Int) ^ (2 : Int).toNat % 1000000007)) ∧
    (mod_exp 3 0 1 = Except.ok 1 ∧
      mod_exp 3 0 1 ≠ Except.ok ((3 : Int) ^ (0 : Int).toNat % 1)) := by
  decide

/-- C4 (the code at the failing input). After `precompute_factorials(5, 1000000007)`
on the empty tables, `(fact[1] * inv_fact[1]) mod 1000000007` is `0`, not `1`. -/
theorem fact_inv_fact_product_at_5 :
    ∃ T', precompute_factorials Tables.initial 5 1000000007 = Except.ok T' ∧
      (T'.fact.getD 1 0 * T'.inv_fact.getD 1 0) % 1000000007 = 0 :=
  ⟨{ fact := [1, 0, 0, 0, 0, 0], inv_fact := [0, 0, 0, 0, 0, 0] }, by decide, by decide⟩

/-- C5. Whatever the tables hold (also when they are empty) and whatever the
modulus, `ncr(n, r, mod)` returns `0` when `r > n` or `r < 0`: the guard returns
before either table is read. -/
theorem ncr_out_of_range (T : Tables) (n r mod : Int) (h : r > n ∨ r < 0) :
    ncr T n r mod = Except.ok 0 := by
  unfold ncr
  simp [h]

/-- Witness for C5: `ncr(5, 7, p)` and `ncr(5, -1, p)` on the empty tables, with
`p = 1000000007`. -/
theorem ncr_out_of_range_witness :
    ncr Tables.initial 5 7 1000000007 = Except.ok 0 ∧
    ncr Tables.initial 5 (-1) 1000000007 = Except.ok 0 :=
  ⟨ncr_out_of_range Tables.initial 5 7 1000000007 (by decide),
   ncr_out_of_range Tables.initial 5 (-1) 1000000007 (by decide)⟩

/-- C7. Let `p` be a prime with `n < p`, and let the prior tables be either tables
the program can hold at the call (empty, or left by earlier calls) or, for
`p ≤ 2^31`, any tables whose `fact` entries lie in `[0, p)`. Then
`precompute_factorials(n, p)` returns when `n + 1 ≤ max_size()` and throws
`length_error` otherwise; and whenever it returns, the tables `fact`, `inv_fact`
it leaves have `n + 1` entries with `inv_fact[n] = fact[n]^(p-2) mod p` and
`inv_fact[i] = inv_fact[i+1] * (i+1) mod p` for every `i < n`. -/
theorem inv_fact_recurrence (T : Tables) (n p : Nat) (hp : p.Prime) (hn : n < p)
    (hp64 : (p : Int) < 2 ^ 63)
    (hT : Reachable T ∨ ((p : Int) ≤ 2 ^ 31 ∧ ∀ x ∈ T.fact, 0 ≤ x ∧ x < (p : Int))) :
    ((n : Int) + 1 ≤ max_size → ∃ T', precompute_factorials T (n : Int) (p : Int) = Except.ok T') ∧
    (max_size < (n : Int) + 1 →
      precompute_factorials T (n : Int) (p : Int) = Except.error Err.lengthError) ∧
    ∀ T', precompute_factorials T (n : Int) (p : Int) = Except.ok T' →
      T'.fact.length = n + 1 ∧ T'.inv_fact.length = n + 1 ∧
      T'.inv_fact.getD n 0 = T'.fact.getD n 0 ^ (p - 2) % (p : Int) ∧
      ∀ i : Nat, i < n →
        T'.inv_fact.getD i 0 = T'.inv_fact.getD (i + 1) 0 * ((i : Int) + 1) % (p : Int) := by
  have hp2 := hp.two_le
  have core : (n : Int) + 1 ≤ max_size →
      ∃ T', precompute_factorials T (n : Int) (p : Int) = Except.ok T' ∧
        T'.fact.length = n + 1 ∧ T'.inv_fact.length = n + 1 ∧
        T'.inv_fact.getD n 0 = T'.fact.getD n 0 ^ (p - 2) % (p : Int) ∧
        ∀ i : Nat, i < n →
          T'.inv_fact.getD i 0
            = T'.inv_fact.getD (i + 1) 0 * ((i : Int) + 1) % (p : Int) := by
    intro hmax
    rcases hT with hreach | ⟨hp31, hres⟩
    · rw [precompute_factorials_eq_initial T (reachable_zero_tail T hreach)]
      rcases Nat.eq_zero_or_pos n with rfl | hnpos
      · have h := precompute_factorials_initial_zero (p : Int) (by omega) hp64
        rw [Nat.cast_zero]
        refine ⟨_, h, rfl, rfl, ?_, ?_⟩
        · show (1 : Int) = 1 ^ (p - 2) % (p : Int)
          rw [one_pow, Int.emod_eq_of_lt (by norm_num) (by omega)]
        · intro i hi
          omega
      · by_cases h2 : p = 2
        · subst h2
          have h1 : n = 1 := by omega
          subst h1
          refine ⟨{ fact := [1, 0], inv_fact := [1, 1] }, by decide, rfl, rfl, by decide, ?_⟩
          intro i hi
          have hi0 : i = 0 := by omega
          subst hi0
          decide
        · have h := precompute_factorials_initial_pos (n : Int) (p : Int) (by omega) hmax
            (by omega) hp64
          rw [Int.toNat_natCast] at h
          refine ⟨_, h, by simp, by simp, ?_, ?_⟩
          · show (List.replicate (n + 1) (0 : Int)).getD n 0
              = ((1 : Int) :: List.replicate n 0).getD n 0 ^ (p - 2) % (p : Int)
            rw [getD_replicate_zero, getD_one_cons_replicate _ _ hnpos, zero_pow (by omega),
              Int.zero_emod]
          · intro i _
            show (List.replicate (n + 1) (0 : Int)).getD i 0
              = (List.replicate (n + 1) (0 : Int)).getD (i + 1) 0 * ((i : Int) + 1) % (p : Int)
            rw [getD_replicate_zero, getD_replicate_zero, zero_mul, Int.zero_emod]
    · obtain ⟨T', hT', hlf, hli, hlast, hrel⟩ := precompute_factorials_residues T (n : Int)
        (p : Int) (by omega) hmax (by omega) (by omega) hp31 hres
      have he : ((p : Int) - 2).toNat = p - 2 := by omega
      rw [Int.toNat_natCast, he] at hlast
      exact ⟨T', hT', by omega, by omega, hlast, fun i hi => hrel i (by omega)⟩
  refine ⟨fun hmax => ?_, ?_, ?_⟩
  · obtain ⟨T', hT', _⟩ := core hmax
    exact ⟨T', hT'⟩
  · intro hmax
    exact precompute_factorials_length_error T (n : Int) (p : Int) (by omega) (by omega) hmax
  · intro T' hT'
    have hmax := precompute_factorials_within_max_size T T' (n : Int) (p : Int) (by omega)
      (by omega) hT'
    obtain ⟨T'', hT'', hprops⟩ := core hmax
    rw [hT'] at hT''
    cases hT''
    exact hprops

/-- Witness for C7: from the prior tables `fact = [1,1,2]`, `inv_fact = [1,1,4]`
(residues modulo `7`), `precompute_factorials(2, 7)` leaves `fact = [1,1,4]` and
`inv_fact = [4,4,2]`, with `2 = 4^5 mod 7`, `4 = 2 * 2 mod 7` and `4 = 4 * 1 mod 7`. -/
theorem inv_fact_recurrence_witness :
    precompute_factorials { fact := [1, 1, 2], inv_fact := [1, 1, 4] } 2 7
      = Except.ok { fact := [1, 1, 4], inv_fact := [4, 4, 2] } ∧
    ∀ T', precompute_factorials { fact := [1, 1, 2], inv_fact := [1, 1, 4] } 2 7
        = Except.ok T' →
      T'.fact.length = 2 + 1 ∧ T'.inv_fact.length = 2 + 1 ∧
      T'.inv_fact.getD 2 0 = T'.fact.getD 2 0 ^ (7 - 2) % 7 ∧
      ∀ i : Nat, i < 2 →
        T'.inv_fact.getD i 0 = T'.inv_fact.getD (i + 1) 0 * ((i : Int) + 1) % 7 :=
  ⟨by decide,
   (inv_fact_recurrence { fact := [1, 1, 2], inv_fact := [1, 1, 4] } 2 7 (by norm_num)
      (by norm_num) (by norm_num) (Or.inr ⟨by norm_num, by decide⟩)).2.2⟩

/-- C8. For `0 ≤ r ≤ n`, a modulus with `0 < mod < 2^31` and tables longer than
`n` whose entries lie in `[0, mod)`, `ncr(n, r, mod)` returns
`(fact[n] * inv_fact[r] * inv_fact[n - r]) mod mod` computed over the integers:
no product leaves the 64-bit range and the intermediate reduction does not change
the value. -/
theorem ncr_exact (T : Tables) (n r mod : Int) (hr0 : 0 ≤ r) (hrn : r ≤ n) (hn : n < 2 ^ 63)
    (hm0 : 0 < mod) (hm : mod < 2 ^ 31)
    (hlenf : n < T.fact.length) (hleni : n < T.inv_fact.length)
    (hf : ∀ x ∈ T.fact, 0 ≤ x ∧ x < mod) (hi : ∀ x ∈ T.inv_fact, 0 ≤ x ∧ x < mod) :
    ncr T n r mod = Except.ok
      ((T.fact.getD n.toNat 0 * T.inv_fact.getD r.toNat 0 * T.inv_fact.getD (n - r).toNat 0)
        % mod) := by
  have hF := getD_bounds T.fact mod hf n.toNat (by omega)
  have hG := getD_bounds T.inv_fact mod hi r.toNat (by omega)
  have hH := getD_bounds T.inv_fact mod hi (n - r).toNat (by omega)
  have hguard : ¬ (r > n ∨ r < 0) := by omega
  have hw : wrap64 (n - r) = n - r := wrap64_eq _ (by omega) (by omega)
  have hfg := mul_lt_of_lt_two_pow_31 _ _ mod hF.1 hG.1 hF.2 hG.2 hm
  have hx0 : 0 ≤ (T.fact.getD n.toNat 0 * T.inv_fact.getD r.toNat 0) % mod :=
    Int.emod_nonneg _ (by omega)
  have hx1 : (T.fact.getD n.toNat 0 * T.inv_fact.getD r.toNat 0) % mod < mod :=
    Int.emod_lt_of_pos _ hm0
  have hxh := mul_lt_of_lt_two_pow_31 _ _ mod hx0 hH.1 hx1 hH.2 hm
  unfold ncr
  rw [if_neg hguard, load_eq _ _ (by omega) hlenf, load_eq _ _ hr0 (by omega), hw,
    load_eq _ _ (by omega) (by omega)]
  simp only [bind, Except.bind]
  rw [wrap64_eq _ (by omega) (by omega), cmod_nonneg _ _ hfg.1 hm0]
  simp only []
  rw [wrap64_eq _ (by omega) (by omega), cmod_nonneg _ _ hxh.1 hm0]
  congr 1
  rw [Int.mul_emod, Int.emod_emod_of_dvd _ (dvd_refl mod), ← Int.mul_emod]

/-- Witness for C8: on the factorial tables modulo `1000000007` for
`n = 5`, `ncr(5, 2, 1000000007)` is `10`. -/
theorem ncr_exact_witness :
    ncr { fact := [1, 1, 2, 6, 24, 120],
          inv_fact := [1, 1, 500000004, 166666668, 41666667, 808333339] } 5 2 1000000007
      = Except.ok 10 :=
  ncr_exact { fact := [1, 1, 2, 6, 24, 120],
              inv_fact := [1, 1, 500000004, 166666668, 41666667, 808333339] } 5 2 1000000007
    (by decide) (by decide) (by decide) (by decide) (by decide) (by decide) (by decide)
    (by decide) (by decide)

/-- C9. For `0 ≤ n` the call `precompute_factorials(n, mod)` returns whenever
`n + 1 ≤ max_size()` and `2 ≤ mod`, and throws `length_error` when
`n + 1 > max_size()`; and whenever it returns, both tables have exactly `n + 1`
entries, so that for `0 ≤ r ≤ n_q ≤ n` the three table reads of
`ncr(n_q, r, mod)` are in range and `ncr` never takes the out-of-range branch. -/
theorem precompute_factorials_sizes (T : Tables) (n mod : Int) (h0 : 0 ≤ n) (hn : n < 2 ^ 63) :
    (n + 1 ≤ max_size → 2 ≤ mod → mod < 2 ^ 63 →
      ∃ T', precompute_factorials T n mod = Except.ok T') ∧
    (max_size < n + 1 → precompute_factorials T n mod = Except.error Err.lengthError) ∧
    (∀ T', precompute_factorials T n mod = Except.ok T' →
      (T'.fact.length : Int) = n + 1 ∧ (T'.inv_fact.length : Int) = n + 1 ∧
      ∀ n_q r : Int, 0 ≤ r → r ≤ n_q → n_q ≤ n →
        load T'.fact n_q = Except.ok (T'.fact.getD n_q.toNat 0) ∧
        load T'.inv_fact r = Except.ok (T'.inv_fact.getD r.toNat 0) ∧
        load T'.inv_fact (wrap64 (n_q - r)) = Except.ok (T'.inv_fact.getD (n_q - r).toNat 0) ∧
        ncr T' n_q r mod ≠ Except.error Err.outOfBounds) := by
  refine ⟨fun h1 h2 h3 => precompute_factorials_returns T n mod h0 h1 h2 h3,
    fun hmax => precompute_factorials_length_error T n mod h0 hn hmax, ?_⟩
  intro T' hT'
  obtain ⟨hlf, hli⟩ := precompute_factorials_lengths T T' n mod h0 hn hT'
  refine ⟨hlf, hli, ?_⟩
  intro n_q r hr0 hrn hqn
  have hw : wrap64 (n_q - r) = n_q - r := wrap64_eq _ (by omega) (by omega)
  have e1 := load_eq T'.fact n_q (by omega) (by omega)
  have e2 := load_eq T'.inv_fact r hr0 (by omega)
  have e3 := load_eq T'.inv_fact (n_q - r) (by omega) (by omega)
  refine ⟨e1, e2, by rw [hw]; exact e3, ?_⟩
  unfold ncr
  rw [if_neg (by omega), hw, e1, e2, e3]
  simp only [bind, Except.bind]
  cases hc : cmod (wrap64 (T'.fact.getD n_q.toNat 0 * T'.inv_fact.getD r.toNat 0)) mod with
  | error e =>
    simp only []
    rw [← hc]
    exact cmod_ne_outOfBounds _ _
  | ok v =>
    simp only []
    exact cmod_ne_outOfBounds _ _

/-- Witness for C9: from the empty tables,
`precompute_factorials(5, 1000000007)` returns tables of six entries each. -/
theorem precompute_factorials_sizes_witness :
    ∃ T', precompute_factorials Tables.initial 5 1000000007 = Except.ok T' ∧
      (T'.fact.length : Int) = 5 + 1 ∧ (T'.inv_fact.length : Int) = 5 + 1 := by
  have h := precompute_factorials_sizes Tables.initial 5 1000000007 (by decide) (by decide)
  obtain ⟨T', hT'⟩ := h.1 (by decide) (by decide) (by decide)
  exact ⟨T', hT', (h.2.2 T' hT').1, (h.2.2 T' hT').2.1⟩

/-- C10. For every exponent `b ≥ 0`, any base and any modulus `> 0`, the loop of
`mod_exp` terminates: with more fuel than `bitlength b` it returns, having run
exactly `bitlength b` bodies and at most `2 * bitlength b` modular multiplications,
while `bitlength b` units of fuel or fewer are not enough; each body replaces the
loop variable `b > 0` by `b / 2 < b`; and `mod_exp` itself returns for `b < 2^63`. -/
theorem mod_exp_terminates (a b mod : Int) (hb : 0 ≤ b) (hm : 0 < mod) :
    (∀ fuel : Nat, bitlength b.toNat < fuel →
      ∃ s', mod_exp_loop fuel mod
          { result := 1, a := a, b := b, iterations := 0, multiplications := 0 } = Except.ok s' ∧
        s'.iterations = bitlength b.toNat ∧
        s'.multiplications ≤ 2 * bitlength b.toNat) ∧
    (∀ fuel : Nat, fuel ≤ bitlength b.toNat →
      mod_exp_loop fuel mod
          { result := 1, a := a, b := b, iterations := 0, multiplications := 0 }
        = Except.error Err.outOfFuel) ∧
    (∀ s : ModExpState, 0 < s.b →
      ∃ s', mod_exp_body mod s = Except.ok s' ∧ s'.b = s.b / 2 ∧ s'.b < s.b ∧
        s'.iterations = s.iterations + 1) ∧
    (b < 2 ^ 63 → ∃ r, mod_exp a b mod = Except.ok r) := by
  refine ⟨?_, ?_, ?_, ?_⟩
  · intro fuel hfuel
    obtain ⟨s', hs', hit, hmul⟩ := mod_exp_loop_terminates mod hm fuel
      { result := 1, a := a, b := b, iterations := 0, multiplications := 0 } hb hfuel
    exact ⟨s', hs', by simpa using hit, by simpa using hmul⟩
  · intro fuel hfuel
    exact mod_exp_loop_out_of_fuel mod hm fuel _ hb hfuel
  · intro s hs
    refine ⟨_, mod_exp_body_eq mod s hm, rfl, ?_, rfl⟩
    simp only
    omega
  · intro h64
    obtain ⟨s', hs', _⟩ := mod_exp_loop_terminates mod hm 64
      { result := 1, a := a, b := b, iterations := 0, multiplications := 0 } hb
      (bitlength_toNat_lt_64 b h64)
    exact ⟨_, mod_exp_eq_of_loop _ _ _ _ hs'⟩

/-- Witness for C10: for `b = 10` (four binary digits) the loop
returns with five units of fuel after four bodies and at most eight modular
multiplications. -/
theorem mod_exp_terminates_witness :
    ∃ s', mod_exp_loop 5 1000000007
        { result := 1, a := 3, b := 10, iterations := 0, multiplications := 0 } = Except.ok s' ∧
      s'.iterations = 4 ∧ s'.multiplications ≤ 8 := by
  have hb : bitlength (10 : Int).toNat = 4 := by simp [bitlength, Nat.log]
  obtain ⟨s', h1, h2, h3⟩ :=
    (mod_exp_terminates 3 10 1000000007 (by decide) (by decide)).1 5 (by rw [hb]; decide)
  rw [hb] at h2 h3
  exact ⟨s', h1, h2, h3⟩

/-- C11 (amended). For a non-empty input of fewer than `2^31` values of type `int`
whose shifts `s[i] = a[i] - i` do not overflow (`a[i] - i ≥ -2^31`): if some
`s[i] ≤ 0`, `solve` prints the least such index; otherwise it prints `m + j`, where
`m` is the minimum of `s` and `j` the first index at which `s` attains it. -/
theorem solve_output (a : List Int) (hne : a ≠ []) (hlen : (a.length : Int) < 2 ^ 31)
    (hrange : ∀ k : Nat, k < a.length → -2 ^ 31 ≤ a.getD k 0 - k ∧ a.getD k 0 < 2 ^ 31) :
    (∀ i : Nat, i < a.length → a.getD i 0 - i ≤ 0 →
      (∀ k : Nat, k < i → 0 < a.getD k 0 - k) → solve a = Except.ok (i : Int)) ∧
    ((∀ k : Nat, k < a.length → 0 < a.getD k 0 - k) →
      ∀ j : Nat, j < a.length →
        (∀ k : Nat, k < a.length → a.getD j 0 - j ≤ a.getD k 0 - k) →
        (∀ k : Nat, k < j → a.getD j 0 - j < a.getD k 0 - k) →
        solve a = Except.ok ((a.getD j 0 - j) + j)) := by
  obtain ⟨hsl, hsv⟩ := shift_loop_spec a 0 (by simpa using hlen) (by
    intro k hk
    have := hrange k hk
    simp only [Nat.cast_zero, zero_add]
    constructor <;> omega)
  simp only [Nat.cast_zero, zero_add] at hsl hsv
  obtain ⟨hscan1, hscan2⟩ := scan_loop_spec (shift_loop 0 a) 0 (by
    rw [hsl]
    simpa using hlen)
  simp only [Nat.cast_zero, zero_add] at hscan1 hscan2
  constructor
  · intro i hi hle hbefore
    have hscan := hscan1 i (by rw [hsl]; exact hi) (by rw [hsv i hi]; exact hle) (by
      intro k hk
      rw [hsv k (by omega)]
      exact hbefore k hk)
    unfold solve
    simp only [hscan]
  · intro hall j hj hmin hfirst
    have hscan := hscan2 (by
      intro k hk
      rw [hsl] at hk
      rw [hsv k hk]
      exact hall k hk)
    have hsne : shift_loop 0 a ≠ [] := by
      intro h
      rw [h] at hsl
      cases a with
      | nil => exact hne rfl
      | cons x xs => simp at hsl
    obtain ⟨hr, hrmin, hrfirst⟩ := min_element_spec (shift_loop 0 a) hsne
    rw [hsl] at hr hrmin
    have hrj : min_element (shift_loop 0 a) = j := by
      rcases Nat.lt_trichotomy (min_element (shift_loop 0 a)) j with h | h | h
      · have h1 := hfirst _ h
        have h2 := hrmin j hj
        rw [hsv _ hr, hsv j hj] at h2
        omega
      · exact h
      · have h1 := hrfirst j h
        have h2 := hmin _ hr
        rw [hsv _ hr, hsv j hj] at h1
        omega
    have hj31 := hrange j hj
    unfold solve
    simp only [hscan, hrj]
    rw [load_eq _ _ (by omega) (by rw [hsl]; exact_mod_cast hj), Int.toNat_natCast, hsv j hj]
    simp only [bind, Except.bind, pure, Except.pure]
    rw [wrap64_eq _ (by omega) (by omega)]

/-- Witness for C11 (amended): input `[3, 5, 4]`, whose shifts `[3, 4, 2]` are all
positive with the first minimum `2` at index `2`, prints `2 + 2 = 4`; and input
`[3, 1, 5]`, with shifts `[3, 0, 3]`, prints the index `1`. -/
theorem solve_output_witness :
    solve [3, 5, 4] = Except.ok 4 ∧ solve [3, 1, 5] = Except.ok 1 :=
  ⟨(solve_output [3, 5, 4] (by decide) (by decide) (by decide)).2 (by decide) 2 (by decide)
      (by decide) (by decide),
   (solve_output [3, 1, 5] (by decide) (by decide) (by decide)).1 1 (by decide) (by decide)
      (by decide)⟩

/-- C11 (counterexample). On the input `[5, -2147483648]` the shift
`a[1] - 1` overflows 32 bits and wraps to `2147483647`, so no stored value is
`≤ 0` and `solve` prints `5` (minimum `5` at index `0`), although
`a[1] - 1 ≤ 0` and `a[0] - 0 > 0` make `1` the least index with `s[i] ≤ 0`. -/
theorem solve_counterexample :
    solve [5, -2147483648] = Except.ok 5 ∧
    solve [5, -2147483648] ≠ Except.ok 1 ∧
    (-2147483648 : Int) - 1 ≤ 0 ∧ ¬ ((5 : Int) - 0 ≤ 0) := by
  decide

/-- C12 (amended). From the empty tables, for every `n ≥ 1` with
`n + 1 ≤ max_size() = 2^60 - 1` and every modulus `≥ 3`,
`precompute_factorials(n, mod)` returns tables of `n + 1` entries with
`fact[0] = 1`, `fact[i] = 0` for `1 ≤ i ≤ n` and `inv_fact[i] = 0` for `0 ≤ i ≤ n`;
and then `ncr(n_q, r, mod)` returns `0` for all `0 ≤ r ≤ n_q ≤ n`. -/
theorem precompute_factorials_zero_tables (n mod : Int) (hn : 1 ≤ n)
    (hmax : n + 1 ≤ max_size) (hm : 3 ≤ mod) (hm64 : mod < 2 ^ 63) :
    ∃ T', precompute_factorials Tables.initial n mod = Except.ok T' ∧
      (T'.fact.length : Int) = n + 1 ∧ (T'.inv_fact.length : Int) = n + 1 ∧
      T'.fact.getD 0 0 = 1 ∧
      (∀ i : Nat, 1 ≤ i → (i : Int) ≤ n → T'.fact.getD i 0 = 0) ∧
      (∀ i : Nat, (i : Int) ≤ n → T'.inv_fact.getD i 0 = 0) ∧
      ∀ n_q r : Int, 0 ≤ r → r ≤ n_q → n_q ≤ n → ncr T' n_q r mod = Except.ok 0 := by
  have hn64 : n + 1 < 2 ^ 63 := by
    rw [max_size_eq] at hmax
    omega
  refine ⟨_, precompute_factorials_initial_pos n mod hn hmax hm hm64, ?_, ?_, rfl, ?_, ?_, ?_⟩
  · simp only [List.length_cons, List.length_replicate]
    omega
  · simp only [List.length_replicate]
    omega
  · intro i hi _
    exact getD_one_cons_replicate _ i hi
  · intro i _
    exact getD_replicate_zero _ i
  · intro n_q r hr0 hrq hqn
    unfold ncr
    rw [if_neg (by omega), wrap64_eq (n_q - r) (by omega) (by omega),
      load_eq _ n_q (by omega) (by simp only [List.length_cons, List.length_replicate]; omega),
      load_eq _ r hr0 (by simp only [List.length_replicate]; omega),
      load_eq _ (n_q - r) (by omega) (by simp only [List.length_replicate]; omega)]
    simp only [bind, Except.bind, getD_replicate_zero, mul_zero, wrap64_zero,
      cmod_zero mod (by omega), zero_mul]

/-- Witness for C12 (amended): `n = 5` and modulus `1000000007`, with the query
`ncr(5, 2, 1000000007)`. -/
theorem precompute_factorials_zero_tables_witness :
    ∃ T', precompute_factorials Tables.initial 5 1000000007 = Except.ok T' ∧
      T'.fact.getD 0 0 = 1 ∧ T'.fact.getD 5 0 = 0 ∧ T'.inv_fact.getD 0 0 = 0 ∧
      ncr T' 5 2 1000000007 = Except.ok 0 := by
  obtain ⟨T', h, _, _, h0, hf, hi, hq⟩ := precompute_factorials_zero_tables 5 1000000007
    (by decide) (by decide) (by decide) (by decide)
  exact ⟨T', h, h0, hf 5 (by decide) (by decide), hi 0 (by decide),
    hq 5 2 (by decide) (by decide) (by decide)⟩

/-- C12 (counterexample). For `n = 2^60 - 1` the size `n + 1` exceeds
`max_size()`, and for `n = 2^63 - 1` the sum `n + 1` wraps to `-2^63`: in both
cases `resize` throws `length_error` and no table entry is written, although
`n ≥ 1` and the modulus `1000000007` is `≥ 3`. -/
theorem precompute_factorials_zero_tables_counterexample :
    ((1 : Int) ≤ 2 ^ 60 - 1 ∧ (3 : Int) ≤ 1000000007 ∧
      precompute_factorials Tables.initial (2 ^ 60 - 1) 1000000007
        = Except.error Err.lengthError) ∧
    ((1 : Int) ≤ 2 ^ 63 - 1 ∧
      precompute_factorials Tables.initial (2 ^ 63 - 1) 1000000007
        = Except.error Err.lengthError) := by
  decide

/-- C13. For every `a` with `0 ≤ a < 2^63`, `tobin(a)` returns a string `s` with
`toint(s) = a`; `s` consists only of the characters `'0'` and `'1'`, is `"0"` for
`a = 0` and otherwise starts with `'1'` (no leading `'0'`). -/
theorem toint_tobin (a : Int) (h0 : 0 ≤ a) (h63 : a < 2 ^ 63) :
    ∃ s : List Char, tobin a = Except.ok s ∧ toint s = a ∧
      (∀ c ∈ s, c = '0' ∨ c = '1') ∧
      (a = 0 → s = ['0']) ∧
      (a ≠ 0 → s.head? = some '1') := by
  obtain ⟨L, hL, hchars, hzero, hlast, hval⟩ := tobin_loop_spec 64 a [] h0
    (bitlength_toNat_lt_64 a h63)
  rw [List.nil_append] at hL
  unfold tobin
  rw [hL]
  simp only [bind, Except.bind, pure, Except.pure]
  by_cases ha : a = 0
  · rw [hzero ha]
    refine ⟨['0'], rfl, ?_, ?_, fun _ => rfl, fun h => absurd ha h⟩
    · rw [ha]
      decide
    · intro c hc
      rcases List.mem_singleton.mp hc with rfl
      exact Or.inl rfl
  · have hl := hlast (by omega)
    have hne : L.reverse.isEmpty = false := by
      cases L with
      | nil => simp at hl
      | cons y ys => simp
    refine ⟨L.reverse, by rw [hne]; rfl, hval h63, ?_, fun h => absurd h ha, ?_⟩
    · intro c hc
      exact hchars c (List.mem_reverse.mp hc)
    · intro _
      rw [List.head?_reverse]
      exact hl

/-- Witness for C13: `a = 6`, whose binary string is `"110"`. -/
theorem toint_tobin_witness :
    ∃ s : List Char, tobin 6 = Except.ok s ∧ toint s = 6 ∧
      (∀ c ∈ s, c = '0' ∨ c = '1') ∧ s.head? = some '1' := by
  obtain ⟨s, h1, h2, h3, _, h5⟩ := toint_tobin 6 (by decide) (by decide)
  exact ⟨s, h1, h2, h3, h5 (by decide)⟩

/-- C14. For every `n < 2147395600 = 46340^2`, `isPrime(n)` returns, and it
returns `true` exactly when `n` is a prime number or `n ≤ 1`: it agrees with
primality for `n ≥ 2` and reports `0`, `1` and every negative number as prime. -/
theorem isPrime_iff (n : Int) (hn : n < 2147395600) :
    ∃ r : Bool, isPrime n = Except.ok r ∧ (r = true ↔ (Nat.Prime n.toNat ∨ n ≤ 1)) := by
  obtain ⟨r, hr, hiff⟩ := isPrime_loop_spec n hn (2 ^ 32) 2 (le_refl 2) (by norm_num)
    (by norm_num)
  refine ⟨r, hr, ?_⟩
  rw [hiff]
  by_cases h1 : n ≤ 1
  · constructor
    · intro _
      exact Or.inr h1
    · intro _ d hd hdn
      have : 2 * 2 ≤ d * d := mul_le_mul hd hd (by omega) (by omega)
      omega
  · rw [trial_division_iff n (by omega)]
    constructor
    · intro h
      exact Or.inl h
    · rintro (h | h)
      · exact h
      · omega

/-- Witness for C14: `7` is reported prime, and so is `-5`. -/
theorem isPrime_iff_witness :
    (∃ r : Bool, isPrime 7 = Except.ok r ∧
      (r = true ↔ (Nat.Prime (7 : Int).toNat ∨ (7 : Int) ≤ 1))) ∧
    (∃ r : Bool, isPrime (-5) = Except.ok r ∧
      (r = true ↔ (Nat.Prime (-5 : Int).toNat ∨ (-5 : Int) ≤ 1))) :=
  ⟨isPrime_iff 7 (by decide), isPrime_iff (-5) (by decide)⟩

/-- C15. For every `x ≤ 2^62`, `nearestPowerOf2(x)` terminates and returns the
least power of two `2^k`, `k ≥ 0`, with `x ≤ 2^k`: it is `1` for every `x ≤ 1`
and `x` itself when `x` is a power of two, and no power of two below the result
is `≥ x`. -/
theorem nearestPowerOf2_least (x : Int) (hx : x ≤ 2 ^ 62) :
    ∃ k : Nat, nearestPowerOf2 x = Except.ok (2 ^ k) ∧ x ≤ 2 ^ k ∧
      (∀ j : Nat, x ≤ 2 ^ j → k ≤ j) ∧
      (x ≤ 1 → k = 0) ∧
      (∀ j : Nat, x = 2 ^ j → k = j) := by
  have key : ∃ k : Nat, nearestPowerOf2 x = Except.ok (2 ^ k) ∧ x ≤ 2 ^ k ∧
      (∀ j : Nat, x ≤ 2 ^ j → k ≤ j) := by
    unfold nearestPowerOf2
    by_cases h0 : x ≤ 0
    · rw [if_pos h0]
      exact ⟨0, rfl, by norm_num; omega, fun j _ => Nat.zero_le j⟩
    · rw [if_neg h0]
      obtain ⟨j, _, hj, hxj, hinv⟩ := nearestPowerOf2_loop_spec x hx 64 0 (by omega) (by omega)
        (Or.inl rfl)
      rw [pow_zero] at hj
      refine ⟨j, hj, hxj, ?_⟩
      intro i hi
      by_contra hcon
      rcases hinv with hj0 | hlt
      · omega
      · have : (2 : Int) ^ i ≤ 2 ^ (j - 1) := pow_le_pow_right₀ (by norm_num) (by omega)
        omega
  obtain ⟨k, hk, hxk, hleast⟩ := key
  refine ⟨k, hk, hxk, hleast, ?_, ?_⟩
  · intro h1
    have := hleast 0 (by simpa using h1)
    omega
  · intro j hj
    have h1 := hleast j (by rw [hj])
    have h2 : (2 : Int) ^ j ≤ 2 ^ k := by rw [← hj]; exact hxk
    have h3 : j ≤ k := by
      by_contra hcon
      have : (2 : Int) ^ k < 2 ^ j := pow_lt_pow_right₀ (by norm_num) (by omega)
      omega
    omega

/-- Witness for C15: `nearestPowerOf2(5) = 8`, the ceiling power of two, although
`4` is closer to `5`. -/
theorem nearestPowerOf2_least_witness :
    ∃ k : Nat, nearestPowerOf2 5 = Except.ok (2 ^ k) ∧ (5 : Int) ≤ 2 ^ k ∧
      (∀ j : Nat, (5 : Int) ≤ 2 ^ j → k ≤ j) := by
  obtain ⟨k, h1, h2, h3, _⟩ := nearestPowerOf2_least 5 (by decide)
  exact ⟨k, h1, h2, h3⟩

/-- C16. For `a ≥ 0`, `0 ≤ b < 2^63` and `1 ≤ m ≤ 2^31`, `power(a, b, m)` returns
and equals `mod_exp(a mod m, b, m)`, and both equal `mod_exp(a, b, m)` when
`a < 2^31`; and `power(a, b, 0)` returns `a^b` reduced modulo `2^64` into the
signed 64-bit range. -/
theorem power_eq_mod_exp (a b m : Int) (ha : 0 ≤ a) (hb : 0 ≤ b) (hb64 : b < 2 ^ 63) :
    (1 ≤ m → m ≤ 2 ^ 31 →
      power a b m = mod_exp (a % m) b m ∧
      (∃ r, power a b m = Except.ok r) ∧
      (a < 2 ^ 31 → power a b m = mod_exp a b m)) ∧
    power a b 0 = Except.ok (wrap64 (a ^ b.toNat)) := by
  constructor
  · intro hm1 hm31
    have hpow : power a b m = mod_exp (a % m) b m :=
      power_eq_mod_exp_of_cmod a (a % m) b m (by omega) (cmod_nonneg a m ha (by omega))
    have hr0 : 0 ≤ a % m := Int.emod_nonneg a (by omega)
    have hr1 : a % m < m := Int.emod_lt_of_pos a (by omega)
    refine ⟨hpow, ?_, ?_⟩
    · rw [hpow]
      exact mod_exp_returns (a % m) b m hb hb64 (by omega)
    · intro ha31
      rw [hpow]
      by_cases hb0 : b = 0
      · rw [hb0, mod_exp_zero_exponent, mod_exp_zero_exponent]
      · have hmm : (m - 1) * (m - 1) < 2 ^ 63 := by nlinarith
        have haa : a * a < 2 ^ 63 := by nlinarith
        have hrr : a % m * (a % m) < 2 ^ 63 := by nlinarith
        rw [mod_exp_eq_pow_emod (a % m) b m hr0 hrr (by omega) hb64 (by omega) hmm,
          mod_exp_eq_pow_emod a b m ha haa (by omega) hb64 (by omega) hmm]
        congr 1
        exact (Int.mod_modEq a m).pow b.toNat
  · unfold power
    rw [if_neg (by simp : ¬ ((0 : Int) ≠ 0))]
    simp only [bind, Except.bind, pure, Except.pure]
    rw [power_loop_zero_mod 64 1 a b hb (bitlength_toNat_lt_64 b hb64), one_mul]
    congr 1
    split
    · next h0 =>
      rw [h0]
      rfl
    · rfl

/-- Witness for C16: `power(3, 5, 7) = mod_exp(3, 5, 7) = 5`, and `power(3, 50, 0)` is
`3^50` wrapped to 64 bits. -/
theorem power_eq_mod_exp_witness :
    power 3 5 7 = mod_exp 3 5 7 ∧ power 3 50 0 = Except.ok 6048575297968530377 := by
  have h1 := power_eq_mod_exp 3 5 7 (by decide) (by decide) (by decide)
  have h2 := power_eq_mod_exp 3 50 0 (by decide) (by decide) (by decide)
  exact ⟨(h1.1 (by decide) (by decide)).2.2 (by decide), h2.2⟩

/-- C17. For every `x` with `-2^63 < x < 2^63`, `ispowerof2(x)` returns `true`
exactly when `x = 2^k` for some `k` with `0 ≤ k ≤ 62`; in particular it returns
`false` for `x = 0` and for every negative `x`. -/
theorem ispowerof2_iff (x : Int) (h1 : -2 ^ 63 < x) (h2 : x < 2 ^ 63) :
    (ispowerof2 x = true ↔ ∃ k : Nat, k ≤ 62 ∧ x = 2 ^ k) ∧
    (x ≤ 0 → ispowerof2 x = false) := by
  refine ⟨ispowerof2_aux x h1 h2, ?_⟩
  intro hx
  cases hb : ispowerof2 x with
  | false => rfl
  | true =>
    obtain ⟨k, _, hk⟩ := (ispowerof2_aux x h1 h2).mp hb
    have : (0 : Int) < 2 ^ k := by positivity
    omega

/-- Witness for C17: `8 = 2^3` is recognised, `0` and `-8` are not. -/
theorem ispowerof2_iff_witness :
    ispowerof2 8 = true ∧ ispowerof2 0 = false ∧ ispowerof2 (-8) = false :=
  ⟨(ispowerof2_iff 8 (by decide) (by decide)).1.mpr ⟨3, by decide, by decide⟩,
   (ispowerof2_iff 0 (by decide) (by decide)).2 (by decide),
   (ispowerof2_iff (-8) (by decide) (by decide)).2 (by decide)⟩

end SecurityLines
